import Mathlib

/-!
Shallow embedding of the hierarchical item model of the options-categorizer
web application, together with proofs about its tree operations
(`CategoryDetail.tsx`) and its title-based import merge (`App.tsx`).

JavaScript runtime values are modelled faithfully: a group's `items` array is
a list of arbitrary items (the TypeScript annotation `OptionItem[]` is not
enforced at runtime, and the handlers cast with `as`), property access
`x.items` on a non-group yields `undefined` (modelled as `none`), and
machine timestamps are natural numbers passed in as an explicit `now`
parameter standing for `Date.now()`.
-/

/-- A runtime item: an option `{id, title, createdAt}` or a group
`{id, title, createdAt, items}`.  The `items` list of a group is a list of
arbitrary items, as in the JavaScript runtime; the declared invariant that a
group holds only options is a predicate (`groupsHoldOnlyOptions`) below. -/
inductive Item where
  | option (id : String) (title : String) (createdAt : Nat)
  | group (id : String) (title : String) (createdAt : Nat) (items : List Item)

/-- `item.id`. -/
def Item.id : Item → String
  | .option i _ _ => i
  | .group i _ _ _ => i

/-- `item.title`. -/
def Item.title : Item → String
  | .option _ t _ => t
  | .group _ t _ _ => t

/-- `item.createdAt`. -/
def Item.createdAt : Item → Nat
  | .option _ _ c => c
  | .group _ _ c _ => c

/-- `item.type === 'GROUP'`. -/
def Item.isGroup : Item → Bool
  | .option _ _ _ => false
  | .group _ _ _ _ => true

/-- `item.type === 'OPTION'`. -/
def Item.isOption : Item → Bool
  | .option _ _ _ => true
  | .group _ _ _ _ => false

/-- JavaScript property access `item.items`: `undefined` (`none`) on an
option, the list on a group. -/
def Item.jsItems : Item → Option (List Item)
  | .option _ _ _ => none
  | .group _ _ _ l => some l

/-- `item.items` defaulted to `[]`; used only where a guard has already
established that the item is a group. -/
def Item.subItems : Item → List Item
  | .option _ _ _ => []
  | .group _ _ _ l => l

/-- Object spread `{ ...item, id: newId }`: replaces the id, keeps
everything else (including a group's items). -/
def Item.setId : Item → String → Item
  | .option _ t c, i => .option i t c
  | .group _ t c l, i => .group i t c l

/-- Object spread `{ ...group, items: l }` on a group; identity on an
option (never reached on options in the translated code). -/
def Item.withItems : Item → List Item → Item
  | .option i t c, _ => .option i t c
  | .group i t c _, l => .group i t c l

/-- A category `{id, title, description?, createdAt, modifiedAt, items}`. -/
structure Category where
  id : String
  title : String
  description : Option String
  createdAt : Nat
  modifiedAt : Nat
  items : List Item

/-! ## Tree operations of the category detail view (`CategoryDetail.tsx`)

The drag handlers run only while the item sort mode is manual. -/

/-- `ItemSortField` from `types.ts`. -/
inductive ItemSortField where
  | manual
  | byTitle
  | byCreatedAt
deriving DecidableEq

/-- The create modal's mode (`'createOption' | 'createGroup'`). -/
inductive ModalMode where
  | createOption
  | createGroup
deriving DecidableEq

/-- `findItem` of `CategoryDetail.tsx`: look the id up among the root items
first, then one level inside each group's items. -/
def findItem (cat : Category) (i : String) : Option Item :=
  match cat.items.find? (fun it => it.id == i) with
  | some it => some it
  | none =>
    (cat.items.filterMap (fun it =>
      match it with
      | .group _ _ _ subs => subs.find? (fun o => o.id == i)
      | .option _ _ _ => none)).head?

/-- `arrayMove` of `@dnd-kit/sortable`: remove the element at `i`, then
insert it at position `j` of the shortened array.  Indices in the
translated handlers always come from successful `findIndex` calls, so the
out-of-range fallback (return the list unchanged) is never reached there. -/
def arrayMove (l : List Item) (i j : Nat) : List Item :=
  match l.get? i with
  | none => l
  | some x => (l.eraseIdx i).insertIdx j x

/-- Root-option insertion position of `handleAddItem`/`handleMoveOption`:
`findIndex(i => i.type === 'OPTION')`, `splice(firstOptionIndex, 0, x)` when
an option exists, `push(x)` otherwise. -/
def insertBeforeFirstOption (l : List Item) (x : Item) : List Item :=
  match l with
  | [] => [x]
  | i :: rest =>
    if i.isOption then x :: i :: rest
    else i :: insertBeforeFirstOption rest x

/-- The grouped insertion of `handleAddItem`: find the first item whose id is
`gid`; if it is a group, prepend `x` to its items (`[newItem, ...group.items]`);
otherwise (id absent, or held by a non-group item) change nothing. -/
def prependIntoGroupById (l : List Item) (gid : String) (x : Item) : List Item :=
  match l with
  | [] => []
  | i :: rest =>
    if i.id == gid then
      match i with
      | .group gi gt gc subs => .group gi gt gc (x :: subs) :: rest
      | .option _ _ _ => i :: rest
    else i :: prependIntoGroupById rest gid x

/-- The grouped branch of `handleDeleteItem`: find the first item whose id is
`pgid` and filter `itemId` out of its `items`.  When that item is not a group,
the source evaluates `group.items.filter(...)` with `group.items === undefined`
and throws a `TypeError`, modelled as `Except.error ()`.  When no item has id
`pgid` (`groupIndex === -1`) the list is returned unchanged. -/
def deleteFromNamedGroup (l : List Item) (pgid : String) (itemId : String) :
    Except Unit (List Item) :=
  match l with
  | [] => Except.ok []
  | i :: rest =>
    if i.id == pgid then
      match i with
      | .group gi gt gc subs =>
        Except.ok (.group gi gt gc (subs.filter (fun o => !(o.id == itemId))) :: rest)
      | .option _ _ _ => Except.error ()
    else
      match deleteFromNamedGroup rest pgid itemId with
      | Except.ok rest' => Except.ok (i :: rest')
      | Except.error e => Except.error e

/-- Root search-and-remove of `handleMoveOption`: find the first item whose
id is `oid`, return it together with the list without it. -/
def removeFirstById (l : List Item) (oid : String) : Option (Item × List Item) :=
  match l with
  | [] => none
  | i :: rest =>
    if i.id == oid then some (i, rest)
    else
      match removeFirstById rest oid with
      | some (x, rest') => some (x, i :: rest')
      | none => none

/-- Group search-and-remove of `handleMoveOption`: walk the root items; at the
first group whose items contain id `oid`, splice the first such sub-item out
and replace the group (the source loop `break`s after the first hit). -/
def removeFromGroups (l : List Item) (oid : String) : Option (Item × List Item) :=
  match l with
  | [] => none
  | i :: rest =>
    match i with
    | .group gi gt gc subs =>
      if subs.any (fun o => o.id == oid) then
        match removeFirstById subs oid with
        | some (x, subs') => some (x, .group gi gt gc subs' :: rest)
        | none => none
      else
        match removeFromGroups rest oid with
        | some (x, rest') => some (x, i :: rest')
        | none => none
    | .option _ _ _ =>
      match removeFromGroups rest oid with
      | some (x, rest') => some (x, i :: rest')
      | none => none

/-- Destination step of `handleMoveOption` for a group destination: find the
first item whose id is `gid`; if it is a group, append `x` to its items
(`[...group.items, itemToMove]`); otherwise change nothing — the removed item
is then in neither container. -/
def appendToGroupById (l : List Item) (gid : String) (x : Item) : List Item :=
  match l with
  | [] => []
  | i :: rest =>
    if i.id == gid then
      match i with
      | .group gi gt gc subs => .group gi gt gc (subs ++ [x]) :: rest
      | .option _ _ _ => i :: rest
    else i :: appendToGroupById rest gid x

/-- A JavaScript whitespace character (the common subset: space, tab,
newline, carriage return). -/
def isJsWhitespace (c : Char) : Bool :=
  c == ' ' || c == '\t' || c == '\n' || c == '\r'

/-- `String.prototype.trim`: strip whitespace from both ends. -/
def jsTrim (s : String) : String :=
  String.mk (((s.data.dropWhile isJsWhitespace).reverse.dropWhile
    isJsWhitespace).reverse)

/-- `handleAddItem` of `CategoryDetail.tsx`.  `txt` is the modal input,
`newId` the value produced by `generateId()`, and `now` stands for the two
`Date.now()` calls of the handler (`createdAt` of the new item and
`modifiedAt` of the category), which happen at the same instant.  Returns
`none` when the handler returns without calling `updateCategory` (blank
title). `tgid = none` models a null `targetGroupId`; the source guards with
JavaScript truthiness, so an empty-string id also selects the root branch. -/
def handleAddItem (cat : Category) (mode : ModalMode) (tgid : Option String)
    (txt : String) (newId : String) (now : Nat) : Option Category :=
  if jsTrim txt == "" then none
  else
    let newItem : Item :=
      match mode with
      | .createGroup => .group newId txt now []
      | .createOption => .option newId txt now
    let tgidS := tgid.getD ""
    let newItems : List Item :=
      if mode == .createOption && !(tgidS == "") then
        prependIntoGroupById cat.items tgidS newItem
      else
        if newItem.isGroup then newItem :: cat.items
        else insertBeforeFirstOption cat.items newItem
    some { cat with items := newItems, modifiedAt := now }

/-- `handleDeleteItem` of `CategoryDetail.tsx`, after the user confirmed the
dialog.  `pgid = none` models a null/absent `parentGroupId` (truthiness also
sends an empty string to the root branch).  `Except.error ()` is the
`TypeError` thrown when `parentGroupId` names a non-group item. -/
def handleDeleteItem (cat : Category) (itemId : String) (pgid : Option String)
    (now : Nat) : Except Unit Category :=
  let pgidS := pgid.getD ""
  if !(pgidS == "") then
    match deleteFromNamedGroup cat.items pgidS itemId with
    | Except.ok items' => Except.ok { cat with items := items', modifiedAt := now }
    | Except.error e => Except.error e
  else
    Except.ok { cat with
      items := cat.items.filter (fun i => !(i.id == itemId))
      modifiedAt := now }

/-- `handleMoveOption` of `CategoryDetail.tsx`.  `oid` is `moveTargetId`
(`""` models null, rejected by the truthiness guard), `dest` is the target
(`"ROOT"` or a group id).  Returns `none` when the handler returns without
calling `updateCategory` (no target, or id found nowhere). -/
def handleMoveOption (cat : Category) (oid : String) (dest : String)
    (now : Nat) : Option Category :=
  if oid == "" then none
  else
    let removed : Option (Item × List Item) :=
      match removeFirstById cat.items oid with
      | some r => some r
      | none => removeFromGroups cat.items oid
    match removed with
    | none => none
    | some (itemToMove, items') =>
      let newItems : List Item :=
        if dest == "ROOT" then insertBeforeFirstOption items' itemToMove
        else appendToGroupById items' dest itemToMove
      some { cat with items := newItems, modifiedAt := now }

/-- `handleDragEnd` of `CategoryDetail.tsx`.  `over = none` models a drop
without target.  In manual mode the `groups`/`options` projections are the
unsorted type filters of `category.items`.  Returns `none` whenever the
handler does not call `updateCategory`. -/
def handleDragEnd (cat : Category) (sortField : ItemSortField)
    (activeId : String) (over : Option String) (now : Nat) : Option Category :=
  if !(sortField == ItemSortField.manual) then none
  else
    match over with
    | none => none
    | some overId =>
      if activeId == overId then none
      else
        let groups := cat.items.filter Item.isGroup
        let options := cat.items.filter Item.isOption
        let isActiveGroup := groups.any (fun g => g.id == activeId)
        let isOverGroup := groups.any (fun g => g.id == overId)
        let isActiveOption := options.any (fun o => o.id == activeId)
        let isOverOption := options.any (fun o => o.id == overId)
        if isActiveGroup && isOverGroup then
          let oldIndex := cat.items.findIdx (fun i => i.id == activeId)
          let newIndex := cat.items.findIdx (fun i => i.id == overId)
          some { cat with
            items := arrayMove cat.items oldIndex newIndex
            modifiedAt := now }
        else if isActiveOption && isOverOption then
          let oldIndex := cat.items.findIdx (fun i => i.id == activeId)
          let newIndex := cat.items.findIdx (fun i => i.id == overId)
          some { cat with
            items := arrayMove cat.items oldIndex newIndex
            modifiedAt := now }
        else
          match cat.items.findIdx? (fun i =>
              i.isGroup && i.subItems.any (fun o => o.id == activeId)) with
          | none => none
          | some parentGroupIndex =>
            match cat.items.get? parentGroupIndex with
            | none => none
            | some g =>
              if g.subItems.any (fun o => o.id == overId) then
                let oldIndex := g.subItems.findIdx (fun o => o.id == activeId)
                let newIndex := g.subItems.findIdx (fun o => o.id == overId)
                let newGroupItems := arrayMove g.subItems oldIndex newIndex
                some { cat with
                  items := cat.items.set parentGroupIndex (g.withItems newGroupItems)
                  modifiedAt := now }
              else none

/-! ## Title-based import merge (`importCategories` of `App.tsx`)

The id generator lives in `src/utils`, which is not part of the sources. -/

/-- Modelled from the spec: `generateId` of the missing `src/utils` module;
the spec requires only a capability `newId() -> ID` "producing values unique
within the document's lifetime".  We thread an explicit counter and emit
counter-indexed names, which makes every run of the merge deterministic. -/
def freshId (ctr : Nat) : String × Nat :=
  ("new-" ++ toString ctr, ctr + 1)

/-- Option merge inside an existing same-titled group: the set
`existingSubTitles` is computed once from the group's pre-merge items and
never updated; each imported sub-item whose title is not in that set is
pushed with a freshly generated id. -/
def mergeSubAux (subTitles : List String) (acc : List Item) (imps : List Item)
    (ctr : Nat) : List Item × Nat :=
  match imps with
  | [] => (acc, ctr)
  | imp :: rest =>
    if subTitles.contains imp.title then mergeSubAux subTitles acc rest ctr
    else
      let (nid, ctr') := freshId ctr
      mergeSubAux subTitles (acc ++ [imp.setId nid]) rest ctr'

/-- The `existingGroupItems` loop of `importCategories`: merge the imported
group's items into the existing group's items, deduplicating against the
pre-merge title set only. -/
def mergeSubOptions (existingItems : List Item) (imps : List Item) (ctr : Nat) :
    List Item × Nat :=
  mergeSubAux (existingItems.map Item.title) existingItems imps ctr

/-- `items.map(sub => ({ ...sub, id: generateId() }))`: regenerate the id of
every sub-item, in order. -/
def regenSubs (subs : List Item) (ctr : Nat) : List Item × Nat :=
  match subs with
  | [] => ([], ctr)
  | s :: rest =>
    let (nid, ctr') := freshId ctr
    let (rest', ctr'') := regenSubs rest ctr'
    (s.setId nid :: rest', ctr'')

/-- Merge one imported group: find the first existing group with the same
title and merge options into it; if none exists, push the imported group with
a fresh id and freshly re-identified sub-items. -/
def mergeGroupStep (items : List Item) (imp : Item) (ctr : Nat) :
    List Item × Nat :=
  match items with
  | [] =>
    let (nid, ctr') := freshId ctr
    let (subs', ctr'') := regenSubs imp.subItems ctr'
    ([Item.group nid imp.title imp.createdAt subs'], ctr'')
  | i :: rest =>
    if i.isGroup && i.title == imp.title then
      match i with
      | .group gi gt gc subs =>
        let (subs', ctr') := mergeSubOptions subs imp.subItems ctr
        (.group gi gt gc subs' :: rest, ctr')
      | .option _ _ _ => (i :: rest, ctr)
    else
      let (rest', ctr') := mergeGroupStep rest imp ctr
      (i :: rest', ctr')

/-- Merge one imported root option: push it with a fresh id unless a root
option with the same title already exists. -/
def mergeOptionStep (items : List Item) (imp : Item) (ctr : Nat) :
    List Item × Nat :=
  if items.any (fun i => i.isOption && i.title == imp.title) then (items, ctr)
  else
    let (nid, ctr') := freshId ctr
    (items ++ [imp.setId nid], ctr')

/-- The `impCat.items.forEach` loop: fold the imported items over the
accumulating item list of the matched existing category. -/
def mergeCatItems (items : List Item) (impItems : List Item) (ctr : Nat) :
    List Item × Nat :=
  match impItems with
  | [] => (items, ctr)
  | imp :: rest =>
    let (items', ctr') :=
      if imp.isGroup then mergeGroupStep items imp ctr
      else mergeOptionStep items imp ctr
    mergeCatItems items' rest ctr'

/-- `{ ...impCat, id, items }` of the new-category branch: regenerate the id
of each root item, and of each sub-item of a root group (one level deep, as
in the source). -/
def regenTopItem (item : Item) (ctr : Nat) : Item × Nat :=
  match item with
  | .group _ t c subs =>
    let (nid, ctr') := freshId ctr
    let (subs', ctr'') := regenSubs subs ctr'
    (.group nid t c subs', ctr'')
  | .option _ t c =>
    let (nid, ctr') := freshId ctr
    (.option nid t c, ctr')

/-- `impCat.items.map(...)` of the new-category branch. -/
def regenItems (items : List Item) (ctr : Nat) : List Item × Nat :=
  match items with
  | [] => ([], ctr)
  | i :: rest =>
    let (i', ctr') := regenTopItem i ctr
    let (rest', ctr'') := regenItems rest ctr'
    (i' :: rest', ctr'')

/-- Process one imported category: merge it into the first existing category
with the same title (case-sensitive), setting that category's `modifiedAt`;
if no title matches, append the category with wholly regenerated ids. -/
def mergeDocStep (cats : List Category) (impCat : Category) (now : Nat)
    (ctr : Nat) : List Category × Nat :=
  match cats with
  | [] =>
    let (nid, ctr') := freshId ctr
    let (items', ctr'') := regenItems impCat.items ctr'
    ([{ impCat with id := nid, items := items' }], ctr'')
  | c :: rest =>
    if c.title == impCat.title then
      let (items', ctr') := mergeCatItems c.items impCat.items ctr
      ({ c with items := items', modifiedAt := now } :: rest, ctr')
    else
      let (rest', ctr') := mergeDocStep rest impCat now ctr
      (c :: rest', ctr')

/-- `importCategories` of `App.tsx` (title-based structural merge): fold the
imported categories, in input order, over the existing document. -/
def importCategories (prev : List Category) (imported : List Category)
    (now : Nat) (ctr : Nat) : List Category × Nat :=
  match imported with
  | [] => (prev, ctr)
  | c :: rest =>
    let (cats', ctr') := mergeDocStep prev c now ctr
    importCategories cats' rest now ctr'

/-! ## Loading the persisted document (`AppContent` of `App.tsx`) -/

/-- A parsed JSON value, as returned by `JSON.parse`. -/
inductive JsValue where
  | null
  | boolean (b : Bool)
  | number (n : Int)
  | string (s : String)
  | array (elems : List JsValue)
  | object (fields : List (String × JsValue))

/-- The `useState` initializer of `AppContent`:
`try { const stored = localStorage.getItem(KEY); return stored ? JSON.parse(stored) : [] } catch { return [] }`.
`JSON.parse` is a platform primitive, passed in as `parse`; `stored = none`
models a null `getItem` result, and an empty string is falsy.  The parsed
value is returned as the categories state without any shape validation. -/
def loadCategories (parse : String → Except Unit JsValue)
    (stored : Option String) : JsValue :=
  match stored with
  | none => JsValue.array []
  | some s =>
    if s == "" then JsValue.array []
    else
      match parse s with
      | Except.ok v => v
      | Except.error _ => JsValue.array []

/-! ## Invariants and observation functions -/

/-- Well-formedness of one item: a group's items hold only options (the
declared shape of `GroupItem.items : OptionItem[]` in `types.ts`). -/
def Item.isWellFormed : Item → Bool
  | .option _ _ _ => true
  | .group _ _ _ subs => subs.all Item.isOption

/-- The structural invariant of §3 of the spec: every group of the category
contains only options. -/
def groupsHoldOnlyOptions (cat : Category) : Bool :=
  cat.items.all Item.isWellFormed

/-- Options contributed by one root item: an option counts once, a group
contributes the options among its items. -/
def Item.optionCount : Item → Nat
  | .option _ _ _ => 1
  | .group _ _ _ subs => subs.countP Item.isOption

/-- Total option count of a category: root options plus the options inside
every group. -/
def totalOptions (cat : Category) : Nat :=
  (cat.items.map Item.optionCount).sum

/-- Ids of the root options, in sequence order. -/
def optionIds (l : List Item) : List String :=
  (l.filter Item.isOption).map Item.id

/-- Ids of the root groups, in sequence order. -/
def groupIds (l : List Item) : List String :=
  (l.filter Item.isGroup).map Item.id

/-- Every id of the category, root items and one level of group items. -/
def itemsIds : List Item → List String
  | [] => []
  | i :: rest => i.id :: (i.subItems.map Item.id ++ itemsIds rest)

/-- No option occurs before a group in the flat sequence (all groups first,
then all options). -/
def segregatedItems : List Item → Bool
  | [] => true
  | i :: rest =>
    if i.isOption then rest.all Item.isOption else segregatedItems rest

/-- Modelled from the spec: the root-insertion position for an option as
worded in §4.1 — "after the last Group, or at position 0 if none exist".
Used only to compare the spec's wording with the code's behavior. -/
def insertAfterLastGroupAux : List Item → Item → List Item
  | [], x => [x]
  | i :: rest, x =>
    if rest.any Item.isGroup then i :: insertAfterLastGroupAux rest x
    else i :: x :: rest

/-- Modelled from the spec: see `insertAfterLastGroupAux`; when no group
exists the option goes to position 0. -/
def insertAfterLastGroupSpec (l : List Item) (x : Item) : List Item :=
  if l.any Item.isGroup then insertAfterLastGroupAux l x else x :: l

/-- Field lookup in a parsed JSON object. -/
def jsField (fields : List (String × JsValue)) (k : String) : Option JsValue :=
  (fields.find? (fun f => f.1 == k)).map (fun f => f.2)

/-- Modelled from the spec (§6): a Category-shaped JSON object has a
non-empty string `id`, a non-empty string `title`, and an array `items`. -/
def isCategoryShapedObj : JsValue → Bool
  | .object fs =>
    (match jsField fs "id" with
     | some (.string s) => !(s == "")
     | _ => false) &&
    (match jsField fs "title" with
     | some (.string s) => !(s == "")
     | _ => false) &&
    (match jsField fs "items" with
     | some (.array _) => true
     | _ => false)
  | _ => false

/-- Modelled from the spec (§6): a sequence of Category-shaped objects. -/
def isCategoryShapedArray : JsValue → Bool
  | .array es => es.all isCategoryShapedObj
  | _ => false

/-- Modelled from the spec (§6/§7): loading discards "any malformed stored
value" — unparsable or wrong shape — and falls back to the empty document. -/
def specLoadCategories (parse : String → Except Unit JsValue)
    (stored : Option String) : JsValue :=
  match stored with
  | none => JsValue.array []
  | some s =>
    if s == "" then JsValue.array []
    else
      match parse s with
      | Except.ok v => if isCategoryShapedArray v then v else JsValue.array []
      | Except.error _ => JsValue.array []

/-! ## Basic lemmas about the item accessors -/

@[simp] theorem Item.title_setId (i : Item) (n : String) :
    (i.setId n).title = i.title := by cases i <;> rfl

@[simp] theorem Item.id_setId (i : Item) (n : String) :
    (i.setId n).id = n := by cases i <;> rfl

@[simp] theorem Item.isOption_setId (i : Item) (n : String) :
    (i.setId n).isOption = i.isOption := by cases i <;> rfl

@[simp] theorem Item.isGroup_setId (i : Item) (n : String) :
    (i.setId n).isGroup = i.isGroup := by cases i <;> rfl

@[simp] theorem Item.createdAt_setId (i : Item) (n : String) :
    (i.setId n).createdAt = i.createdAt := by cases i <;> rfl

@[simp] theorem Item.subItems_setId (i : Item) (n : String) :
    (i.setId n).subItems = i.subItems := by cases i <;> rfl

theorem Item.isOption_of_not_isGroup (i : Item) (h : i.isGroup = false) :
    i.isOption = true := by cases i <;> simp_all [Item.isGroup, Item.isOption]

theorem Item.isGroup_of_not_isOption (i : Item) (h : i.isOption = false) :
    i.isGroup = true := by cases i <;> simp_all [Item.isGroup, Item.isOption]

/-! ## Claim C10: the in-group duplicate check uses a stale title set -/

theorem mergeSubAux_countP_title (subTitles : List String) (t : String)
    (h : subTitles.contains t = false) :
    ∀ (imps acc : List Item) (ctr : Nat),
      ((mergeSubAux subTitles acc imps ctr).1.countP (fun i => i.title == t)) =
        acc.countP (fun i => i.title == t) +
          imps.countP (fun i => i.title == t) := by
  intro imps
  induction imps with
  | nil => intro acc ctr; simp [mergeSubAux]
  | cons imp rest ih =>
    intro acc ctr
    simp only [mergeSubAux]
    rcases hc : subTitles.contains imp.title with _ | _
    · simp only [Bool.false_eq_true, if_false]
      rw [ih]
      have : ((imp.setId ("new-" ++ toString ctr)).title == t) = (imp.title == t) := by
        simp
      simp only [freshId, List.countP_append, List.countP_cons, List.countP_nil,
        this]
      omega
    · simp only [if_true]
      rw [ih]
      have himp : (imp.title == t) = false := by
        rcases hbt : imp.title == t with _ | _
        · rfl
        · have hct : subTitles.contains t = true := eq_of_beq hbt ▸ hc
          rw [h] at hct
          exact Bool.noConfusion hct
      simp [List.countP_cons, himp]

theorem countP_title_zero_of_not_contains (ex : List Item) (t : String)
    (h : (ex.map Item.title).contains t = false) :
    ex.countP (fun i => i.title == t) = 0 := by
  induction ex with
  | nil => rfl
  | cons i rest ih =>
    simp only [List.map_cons, List.contains_cons, Bool.or_eq_false_iff] at h
    have hne : (i.title == t) = false := by
      rcases hbt : i.title == t with _ | _
      · rfl
      · exact absurd (eq_of_beq hbt) (by
          intro he
          simp [he] at h)
    simp [List.countP_cons, hne, ih h.2]

/-- C10 (confirmed).  The duplicate check of a merged group consults a title
set computed once from the pre-merge group's items: (1) in general, every
imported sub-item whose title `t` is absent from the existing group's items
is appended, so the merged group carries exactly as many `t`-titled entries
as the import did (duplicates included); (2) concretely, importing a
category `"A"` whose group `"G"` holds two options titled `"t"` into a
document whose `"A"."G"` group is empty leaves the group with two options
both titled `"t"`. -/
theorem c10_stale_duplicate_check :
    (∀ (ex imps : List Item) (ctr : Nat) (t : String),
      ((ex.map Item.title).contains t) = false →
      ((mergeSubOptions ex imps ctr).1.countP (fun i => i.title == t)) =
        imps.countP (fun i => i.title == t)) ∧
    ((importCategories
        [{ id := "c1", title := "A", description := none, createdAt := 0,
           modifiedAt := 0, items := [Item.group "g1" "G" 0 []] }]
        [{ id := "c2", title := "A", description := none, createdAt := 0,
           modifiedAt := 0,
           items := [Item.group "g2" "G" 0
             [Item.option "o1" "t" 1, Item.option "o2" "t" 2]] }]
        9 0).1.map (fun c => c.items.map (fun i => i.subItems.map Item.title)))
      = [[["t", "t"]]] := by
  constructor
  · intro ex imps ctr t h
    unfold mergeSubOptions
    rw [mergeSubAux_countP_title _ _ h, countP_title_zero_of_not_contains _ _ h]
    omega
  · rfl

/-! ## No-op behavior of the tree operations on unresolved references -/

theorem prependIntoGroupById_eq_self (l : List Item) (gid : String) (x : Item)
    (h : ∀ i ∈ l, i.id = gid → i.isOption = true) :
    prependIntoGroupById l gid x = l := by
  induction l with
  | nil => rfl
  | cons i rest ih =>
    simp only [prependIntoGroupById]
    rcases hid : i.id == gid with _ | _
    · simp only [Bool.false_eq_true, if_false]
      rw [ih (fun j hj hj2 => h j (List.mem_cons_of_mem _ hj) hj2)]
    · have hopt := h i (List.mem_cons_self _ _) (eq_of_beq hid)
      cases i with
      | option a b c => rfl
      | group a b c d => exact absurd hopt (by simp [Item.isOption])

theorem deleteFromNamedGroup_eq_ok_self (l : List Item) (pgid itemId : String)
    (h : ∀ i ∈ l, i.id = pgid →
      i.isGroup = true ∧ i.subItems.all (fun o => !(o.id == itemId)) = true) :
    deleteFromNamedGroup l pgid itemId = Except.ok l := by
  induction l with
  | nil => rfl
  | cons i rest ih =>
    simp only [deleteFromNamedGroup]
    rcases hid : i.id == pgid with _ | _
    · simp only [Bool.false_eq_true, if_false]
      rw [ih (fun j hj hj2 => h j (List.mem_cons_of_mem _ hj) hj2)]
    · have hi := h i (List.mem_cons_self _ _) (eq_of_beq hid)
      cases i with
      | option a b c => exact absurd hi.1 (by simp [Item.isGroup])
      | group a b c subs =>
        have : subs.filter (fun o => !(o.id == itemId)) = subs :=
          List.filter_eq_self.mpr (by
            intro o ho
            exact (List.all_eq_true.mp hi.2) o ho)
        simp [this]

theorem deleteFromNamedGroup_error (l : List Item) (pgid itemId : String)
    (hex : ∃ i ∈ l, i.id = pgid)
    (hall : ∀ i ∈ l, i.id = pgid → i.isOption = true) :
    deleteFromNamedGroup l pgid itemId = Except.error () := by
  induction l with
  | nil => exact absurd hex (by simp)
  | cons i rest ih =>
    simp only [deleteFromNamedGroup]
    rcases hid : i.id == pgid with _ | _
    · simp only [Bool.false_eq_true, if_false]
      have hex' : ∃ j ∈ rest, j.id = pgid := by
        rcases hex with ⟨j, hj, hj2⟩
        rcases List.mem_cons.mp hj with hji | hjr
        · exfalso
          rw [hji] at hj2
          rw [hj2] at hid
          simp at hid
        · exact ⟨j, hjr, hj2⟩
      rw [ih hex' (fun j hj hj2 => hall j (List.mem_cons_of_mem _ hj) hj2)]
    · have hi := hall i (List.mem_cons_self _ _) (eq_of_beq hid)
      cases i with
      | option a b c => rfl
      | group a b c subs => exact absurd hi (by simp [Item.isOption])

theorem removeFirstById_eq_none (l : List Item) (oid : String)
    (h : ∀ i ∈ l, (i.id == oid) = false) :
    removeFirstById l oid = none := by
  induction l with
  | nil => rfl
  | cons i rest ih =>
    simp only [removeFirstById, h i (List.mem_cons_self _ _), Bool.false_eq_true,
      if_false]
    rw [ih (fun j hj => h j (List.mem_cons_of_mem _ hj))]

theorem removeFromGroups_eq_none (l : List Item) (oid : String)
    (h : ∀ i ∈ l, i.subItems.all (fun o => !(o.id == oid)) = true) :
    removeFromGroups l oid = none := by
  induction l with
  | nil => rfl
  | cons i rest ih =>
    have ihr := ih (fun j hj => h j (List.mem_cons_of_mem _ hj))
    cases i with
    | option a b c => simp only [removeFromGroups, ihr]
    | group a b c subs =>
      have hany : subs.any (fun o => o.id == oid) = false := by
        rw [List.any_eq_false]
        intro o ho
        have := (List.all_eq_true.mp (h _ (List.mem_cons_self _ _))) o ho
        simpa using this
      simp only [removeFromGroups, hany, Bool.false_eq_true, if_false, ihr]

/-! ## Claim C9: no-op paths still produce a touched category, except move -/

/-- C9 (confirmed).  (1) Inserting an option into a group whose id is absent
or names a non-group still yields a category with unchanged items and
`modifiedAt = now`; (2) deleting with a `parentGroupId` all of whose root
matches are groups not containing the target likewise yields an unchanged,
freshly touched category; (3) `handleMoveOption` with an id found nowhere
returns `none` — no category is produced at all. -/
theorem c9_noop_touch_asymmetry :
    (∀ (cat : Category) (gid txt newId : String) (now : Nat),
      (jsTrim txt == "") = false → (gid == "") = false →
      (∀ i ∈ cat.items, i.id = gid → i.isOption = true) →
      handleAddItem cat ModalMode.createOption (some gid) txt newId now =
        some { cat with modifiedAt := now }) ∧
    (∀ (cat : Category) (itemId gid : String) (now : Nat),
      (gid == "") = false →
      (∀ i ∈ cat.items, i.id = gid →
        i.isGroup = true ∧ i.subItems.all (fun o => !(o.id == itemId)) = true) →
      handleDeleteItem cat itemId (some gid) now =
        Except.ok { cat with modifiedAt := now }) ∧
    (∀ (cat : Category) (oid dest : String) (now : Nat),
      (∀ i ∈ cat.items,
        (i.id == oid) = false ∧ i.subItems.all (fun o => !(o.id == oid)) = true) →
      handleMoveOption cat oid dest now = none) := by
  refine ⟨?_, ?_, ?_⟩
  · intro cat gid txt newId now htxt hgid h
    simp only [handleAddItem, htxt, Bool.false_eq_true, if_false, Option.getD,
      hgid]
    rw [prependIntoGroupById_eq_self _ _ _ h]
    simp
  · intro cat itemId gid now hgid h
    simp only [handleDeleteItem, Option.getD, hgid]
    rw [deleteFromNamedGroup_eq_ok_self _ _ _ h]
    simp
  · intro cat oid dest now h
    simp only [handleMoveOption]
    rcases hoid : oid == "" with _ | _
    · simp only [Bool.false_eq_true, if_false]
      rw [removeFirstById_eq_none _ _ (fun i hi => (h i hi).1),
        removeFromGroups_eq_none _ _ (fun i hi => (h i hi).2)]
    · simp

/-- Witness for C9: a category holding one root option; inserting into the
absent group id `"gX"` returns the same items with `modifiedAt = 7`. -/
theorem c9_noop_touch_asymmetry_witness :
    handleAddItem
      { id := "c", title := "C", description := none, createdAt := 0,
        modifiedAt := 0, items := [Item.option "o1" "t" 0] }
      ModalMode.createOption (some "gX") "hello" "n1" 7 =
      some { id := "c", title := "C", description := none, createdAt := 0,
             modifiedAt := 7, items := [Item.option "o1" "t" 0] } :=
  c9_noop_touch_asymmetry.1 _ "gX" "hello" "n1" 7 (by decide) (by decide)
    (by decide)

/-! ## Claim C3: deleteItem with a bad parentGroupId -/

/-- C3 counterexample.  On a category whose only root item is the option
`"o1"`, deleting any item with `parentGroupId = "o1"` — an id that names a
non-group item — throws (`group.items` is `undefined`), rather than being a
silent no-op. -/
theorem c3_counterexample :
    handleDeleteItem
      { id := "c", title := "C", description := none, createdAt := 0,
        modifiedAt := 0, items := [Item.option "o1" "t" 0] }
      "x" (some "o1") 5 = Except.error () := rfl

/-- C3 (corrected).  (1) `handleDeleteItem` with a `parentGroupId` that
matches no root item id is a no-op on the items (it still returns a category
with `modifiedAt` refreshed); (2) with a `parentGroupId` whose root matches
exist but are options, it throws a `TypeError` (`Except.error`). -/
theorem c3_delete_bad_parent :
    (∀ (cat : Category) (itemId pgid : String) (now : Nat),
      (pgid == "") = false →
      (∀ i ∈ cat.items, (i.id == pgid) = false) →
      handleDeleteItem cat itemId (some pgid) now =
        Except.ok { cat with modifiedAt := now }) ∧
    (∀ (cat : Category) (itemId pgid : String) (now : Nat),
      (pgid == "") = false →
      (∃ i ∈ cat.items, i.id = pgid) →
      (∀ i ∈ cat.items, i.id = pgid → i.isOption = true) →
      handleDeleteItem cat itemId (some pgid) now = Except.error ()) := by
  constructor
  · intro cat itemId pgid now hp h
    simp only [handleDeleteItem, Option.getD, hp]
    rw [deleteFromNamedGroup_eq_ok_self _ _ _ (fun i hi hid => by
      have := h i hi
      rw [hid] at this
      simp at this)]
    simp
  · intro cat itemId pgid now hp hex hall
    simp only [handleDeleteItem, Option.getD, hp]
    rw [deleteFromNamedGroup_error _ _ _ hex hall]
    simp

/-- Witness for C3's amended statement: deleting below the absent group id
`"zz"` in a one-option category returns the category unchanged except for
`modifiedAt`. -/
theorem c3_delete_bad_parent_witness :
    handleDeleteItem
      { id := "c", title := "C", description := none, createdAt := 0,
        modifiedAt := 0, items := [Item.option "o1" "t" 0] }
      "x" (some "zz") 5 =
      Except.ok { id := "c", title := "C", description := none, createdAt := 0,
                  modifiedAt := 5, items := [Item.option "o1" "t" 0] } :=
  c3_delete_bad_parent.1 _ "x" "zz" 5 (by decide) (by decide)

/-! ## Claim C7: loading the persisted document -/

/-- C7 counterexample.  A stored string that parses to the JSON number `42`
— a parsable value that is not a sequence of Category-shaped objects — is
returned as the state verbatim instead of being discarded, diverging from
the spec-modelled loader which falls back to the empty document. -/
theorem c7_counterexample :
    loadCategories (fun _ => Except.ok (JsValue.number 42)) (some "42") =
      JsValue.number 42 ∧
    isCategoryShapedArray (JsValue.number 42) = false ∧
    specLoadCategories (fun _ => Except.ok (JsValue.number 42)) (some "42") =
      JsValue.array [] ∧
    JsValue.number 42 ≠ JsValue.array [] :=
  ⟨rfl, rfl, rfl, fun h => JsValue.noConfusion h⟩

/-- C7 (corrected).  The loader falls back to the empty document exactly for
an absent value, an empty stored string, and a string on which `JSON.parse`
throws; any successfully parsed value is returned as the state with no shape
validation. -/
theorem c7_load_fallback (parse : String → Except Unit JsValue) :
    (loadCategories parse none = JsValue.array []) ∧
    (loadCategories parse (some "") = JsValue.array []) ∧
    (∀ s, parse s = Except.error () →
      loadCategories parse (some s) = JsValue.array []) ∧
    (∀ s v, (s == "") = false → parse s = Except.ok v →
      loadCategories parse (some s) = v) := by
  refine ⟨rfl, rfl, ?_, ?_⟩
  · intro s hs
    simp only [loadCategories]
    rcases he : s == "" with _ | _
    · simp [hs]
    · simp
  · intro s v hs hv
    simp [loadCategories, hs, hv]

/-- Witness for C7's amended statement: a parser that succeeds with the JSON
string `"x"` makes the loader return that value for the stored text `"a"`. -/
theorem c7_load_fallback_witness :
    loadCategories (fun _ => Except.ok (JsValue.string "x")) (some "a") =
      JsValue.string "x" :=
  (c7_load_fallback _).2.2.2 "a" _ (by decide) rfl

/-! ## Shape of a successful removal (`handleMoveOption` search phase) -/

theorem removeFirstById_spec (oid : String) :
    ∀ (l : List Item) (x : Item) (l' : List Item),
      removeFirstById l oid = some (x, l') →
      ∃ pre post, l = pre ++ x :: post ∧ l' = pre ++ post ∧ x.id = oid ∧
        ∀ i ∈ pre, (i.id == oid) = false := by
  intro l
  induction l with
  | nil => intro x l' h; exact absurd h (by simp [removeFirstById])
  | cons i rest ih =>
    intro x l' h
    simp only [removeFirstById] at h
    rcases hid : i.id == oid with _ | _
    · rw [hid] at h
      simp only [Bool.false_eq_true, if_false] at h
      rcases hr : removeFirstById rest oid with _ | ⟨y, rest'⟩
      · rw [hr] at h; exact absurd h (by simp)
      · rw [hr] at h
        simp only [Option.some.injEq, Prod.mk.injEq] at h
        rcases ih y rest' hr with ⟨pre, post, h1, h2, h3, h4⟩
        refine ⟨i :: pre, post, ?_, ?_, ?_, ?_⟩
        · simp [h1, h.1]
        · simp [← h.2, h2]
        · rw [← h.1]; exact h3
        · intro j hj
          rcases List.mem_cons.mp hj with hji | hjr
          · rw [hji]; exact hid
          · exact h4 j hjr
    · rw [hid] at h
      simp only [if_true, Option.some.injEq, Prod.mk.injEq] at h
      exact ⟨[], rest, by simp [h.1], by simp [h.2], by rw [← h.1]; exact eq_of_beq hid,
        by simp⟩

theorem removeFirstById_isSome (oid : String) :
    ∀ (l : List Item), l.any (fun o => o.id == oid) = true →
      ∃ x l', removeFirstById l oid = some (x, l') := by
  intro l
  induction l with
  | nil => intro h; simp at h
  | cons i rest ih =>
    intro h
    simp only [removeFirstById]
    rcases hid : i.id == oid with _ | _
    · have hrest : rest.any (fun o => o.id == oid) = true := by
        simp only [List.any_cons, hid, Bool.false_or] at h
        exact h
      rcases ih hrest with ⟨x, l', hx⟩
      exact ⟨x, i :: l', by simp [hx]⟩
    · exact ⟨i, rest, by simp⟩

theorem removeFromGroups_spec (oid : String) :
    ∀ (l : List Item) (x : Item) (l' : List Item),
      removeFromGroups l oid = some (x, l') →
      ∃ pre gi gt gc subs1 subs2 post,
        l = pre ++ Item.group gi gt gc (subs1 ++ x :: subs2) :: post ∧
        l' = pre ++ Item.group gi gt gc (subs1 ++ subs2) :: post ∧
        x.id = oid := by
  intro l
  induction l with
  | nil => intro x l' h; exact absurd h (by simp [removeFromGroups])
  | cons i rest ih =>
    intro x l' h
    cases i with
    | option a b c =>
      simp only [removeFromGroups] at h
      rcases hr : removeFromGroups rest oid with _ | ⟨y, rest'⟩
      · rw [hr] at h; exact absurd h (by simp)
      · rw [hr] at h
        simp only [Option.some.injEq, Prod.mk.injEq] at h
        rcases ih y rest' hr with ⟨pre, gi, gt, gc, s1, s2, post, h1, h2, h3⟩
        exact ⟨Item.option a b c :: pre, gi, gt, gc, s1, s2, post,
          by simp [h1, h.1], by simp [← h.2, h2], h.1 ▸ h3⟩
    | group gi gt gc subs =>
      simp only [removeFromGroups] at h
      rcases hany : subs.any (fun o => o.id == oid) with _ | _
      · rw [hany] at h
        simp only [Bool.false_eq_true, if_false] at h
        rcases hr : removeFromGroups rest oid with _ | ⟨y, rest'⟩
        · rw [hr] at h; exact absurd h (by simp)
        · rw [hr] at h
          simp only [Option.some.injEq, Prod.mk.injEq] at h
          rcases ih y rest' hr with ⟨pre, gi', gt', gc', s1, s2, post, h1, h2, h3⟩
          exact ⟨Item.group gi gt gc subs :: pre, gi', gt', gc', s1, s2, post,
            by simp [h1, h.1], by simp [← h.2, h2], h.1 ▸ h3⟩
      · rw [hany] at h
        simp only [if_true] at h
        rcases hrf : removeFirstById subs oid with _ | ⟨y, subs'⟩
        · rw [hrf] at h; exact absurd h (by simp)
        · rw [hrf] at h
          simp only [Option.some.injEq, Prod.mk.injEq] at h
          rcases removeFirstById_spec oid subs y subs' hrf with
            ⟨s1, s2, hs1, hs2, hsid, _⟩
          refine ⟨[], gi, gt, gc, s1, s2, rest, ?_, ?_, h.1 ▸ hsid⟩
          · simp [hs1, h.1]
          · simp [← h.2, hs2]

/-! ## Claim C2: every operation keeps groups holding only options -/

theorem all_insertIdx (p : Item → Bool) (x : Item) :
    ∀ (j : Nat) (l : List Item), l.all p = true → p x = true →
      (l.insertIdx j x).all p = true := by
  intro j
  induction j with
  | zero =>
    intro l hl hx
    rw [List.insertIdx_zero]
    simp only [List.all_cons, Bool.and_eq_true]
    exact ⟨hx, hl⟩
  | succ n ih =>
    intro l hl hx
    cases l with
    | nil => simp [List.insertIdx]
    | cons a as =>
      simp only [List.insertIdx_succ_cons, List.all_cons, Bool.and_eq_true] at hl ⊢
      exact ⟨hl.1, ih as hl.2 hx⟩

theorem all_arrayMove (p : Item → Bool) (l : List Item) (i j : Nat)
    (h : l.all p = true) : (arrayMove l i j).all p = true := by
  unfold arrayMove
  rcases hg : l.get? i with _ | ⟨x⟩
  · exact h
  · have hx : p x = true := List.all_eq_true.mp h x (List.get?_mem hg)
    have he : (l.eraseIdx i).all p = true := by
      rw [List.all_eq_true]
      intro a ha
      exact List.all_eq_true.mp h a ((List.eraseIdx_sublist l i).subset ha)
    exact all_insertIdx p x j _ he hx

theorem all_set (p : Item → Bool) :
    ∀ (l : List Item) (i : Nat) (x : Item), l.all p = true → p x = true →
      (l.set i x).all p = true := by
  intro l
  induction l with
  | nil => intro i x _ _; simp
  | cons a as ih =>
    intro i x hl hx
    cases i with
    | zero =>
      simp only [List.set, List.all_cons, Bool.and_eq_true] at hl ⊢
      exact ⟨hx, hl.2⟩
    | succ n =>
      simp only [List.set, List.all_cons, Bool.and_eq_true] at hl ⊢
      exact ⟨hl.1, ih n x hl.2 hx⟩

theorem all_insertBeforeFirstOption (p : Item → Bool) (x : Item) :
    ∀ (l : List Item), l.all p = true → p x = true →
      (insertBeforeFirstOption l x).all p = true := by
  intro l
  induction l with
  | nil => intro _ hx; simpa [insertBeforeFirstOption]
  | cons i rest ih =>
    intro hl hx
    simp only [List.all_cons, Bool.and_eq_true] at hl
    simp only [insertBeforeFirstOption]
    rcases hio : i.isOption with _ | _
    · simp only [Bool.false_eq_true, if_false, List.all_cons, Bool.and_eq_true]
      exact ⟨hl.1, ih hl.2 hx⟩
    · simp only [if_true, List.all_cons, Bool.and_eq_true]
      exact ⟨hx, hl.1, hl.2⟩

theorem all_WF_prependIntoGroupById (gid : String) (x : Item)
    (hx : x.isOption = true) :
    ∀ (l : List Item), l.all Item.isWellFormed = true →
      (prependIntoGroupById l gid x).all Item.isWellFormed = true := by
  intro l
  induction l with
  | nil => intro _; simp [prependIntoGroupById]
  | cons i rest ih =>
    intro hl
    simp only [List.all_cons, Bool.and_eq_true] at hl
    simp only [prependIntoGroupById]
    rcases hid : i.id == gid with _ | _
    · simp only [Bool.false_eq_true, if_false, List.all_cons, Bool.and_eq_true]
      exact ⟨hl.1, ih hl.2⟩
    · cases i with
      | option a b c => simp only [if_true, List.all_cons, Bool.and_eq_true]; exact ⟨hl.1, hl.2⟩
      | group gi gt gc subs =>
        simp only [if_true, List.all_cons, Bool.and_eq_true]
        refine ⟨?_, hl.2⟩
        have := hl.1
        simp only [Item.isWellFormed, List.all_cons, Bool.and_eq_true] at this ⊢
        exact ⟨hx, this⟩

theorem all_WF_appendToGroupById (gid : String) (x : Item)
    (hx : x.isOption = true) :
    ∀ (l : List Item), l.all Item.isWellFormed = true →
      (appendToGroupById l gid x).all Item.isWellFormed = true := by
  intro l
  induction l with
  | nil => intro _; simp [appendToGroupById]
  | cons i rest ih =>
    intro hl
    simp only [List.all_cons, Bool.and_eq_true] at hl
    simp only [appendToGroupById]
    rcases hid : i.id == gid with _ | _
    · simp only [Bool.false_eq_true, if_false, List.all_cons, Bool.and_eq_true]
      exact ⟨hl.1, ih hl.2⟩
    · cases i with
      | option a b c => simp only [if_true, List.all_cons, Bool.and_eq_true]; exact ⟨hl.1, hl.2⟩
      | group gi gt gc subs =>
        simp only [if_true, List.all_cons, Bool.and_eq_true]
        refine ⟨?_, hl.2⟩
        have := hl.1
        simp only [Item.isWellFormed, List.all_append, List.all_cons,
          Bool.and_eq_true] at this ⊢
        exact ⟨this, hx, rfl⟩

theorem deleteFromNamedGroup_WF (pgid itemId : String) :
    ∀ (l l' : List Item), deleteFromNamedGroup l pgid itemId = Except.ok l' →
      l.all Item.isWellFormed = true → l'.all Item.isWellFormed = true := by
  intro l
  induction l with
  | nil =>
    intro l' h _
    simp only [deleteFromNamedGroup, Except.ok.injEq] at h
    simp [← h]
  | cons i rest ih =>
    intro l' h hl
    simp only [List.all_cons, Bool.and_eq_true] at hl
    simp only [deleteFromNamedGroup] at h
    rcases hid : i.id == pgid with _ | _
    · rw [hid] at h
      simp only [Bool.false_eq_true, if_false] at h
      rcases hr : deleteFromNamedGroup rest pgid itemId with _ | rest'
      · rw [hr] at h; exact absurd h (by simp)
      · rw [hr] at h
        simp only [Except.ok.injEq] at h
        rw [← h]
        simp only [List.all_cons, Bool.and_eq_true]
        exact ⟨hl.1, ih rest' hr hl.2⟩
    · rw [hid] at h
      cases i with
      | option a b c => simp at h
      | group gi gt gc subs =>
        simp only [if_true, Except.ok.injEq] at h
        rw [← h]
        simp only [List.all_cons, Bool.and_eq_true]
        refine ⟨?_, hl.2⟩
        have := hl.1
        simp only [Item.isWellFormed] at this ⊢
        rw [List.all_eq_true] at this ⊢
        intro o ho
        exact this o (List.mem_of_mem_filter ho)

/-- C2 counterexample.  On a category of two empty groups — which satisfies
the invariant — `handleMoveOption` with the first group's id as the item and
the second group's id as the destination nests a group inside a group. -/
theorem c2_counterexample :
    groupsHoldOnlyOptions
      { id := "c", title := "C", description := none, createdAt := 0,
        modifiedAt := 0,
        items := [Item.group "g1" "G1" 0 [], Item.group "g2" "G2" 0 []] } = true ∧
    (handleMoveOption
      { id := "c", title := "C", description := none, createdAt := 0,
        modifiedAt := 0,
        items := [Item.group "g1" "G1" 0 [], Item.group "g2" "G2" 0 []] }
      "g1" "g2" 5).map groupsHoldOnlyOptions = some false :=
  ⟨rfl, rfl⟩

/-- C2 (corrected).  On a category satisfying the invariant, inserting,
deleting and drag-reordering always preserve it, and `handleMoveOption`
preserves it whenever the moved id does not name a root group (in
particular whenever it resolves to an option, as every id offered by the
move dialog does); moving a root group's id into another group violates it. -/
theorem Item.isWellFormed_of_isOption (x : Item) (hx : x.isOption = true) :
    x.isWellFormed = true := by
  cases x <;> simp_all [Item.isOption, Item.isWellFormed]

theorem c2_operations_preserve_group_invariant (cat : Category)
    (hWF : groupsHoldOnlyOptions cat = true) :
    (∀ (mode : ModalMode) (tgid : Option String) (txt newId : String)
      (now : Nat) (c' : Category),
      handleAddItem cat mode tgid txt newId now = some c' →
      groupsHoldOnlyOptions c' = true) ∧
    (∀ (itemId : String) (pgid : Option String) (now : Nat) (c' : Category),
      handleDeleteItem cat itemId pgid now = Except.ok c' →
      groupsHoldOnlyOptions c' = true) ∧
    (∀ (sf : ItemSortField) (activeId : String) (over : Option String)
      (now : Nat) (c' : Category),
      handleDragEnd cat sf activeId over now = some c' →
      groupsHoldOnlyOptions c' = true) ∧
    (∀ (oid dest : String) (now : Nat) (c' : Category),
      (∀ i ∈ cat.items, i.id = oid → i.isOption = true) →
      handleMoveOption cat oid dest now = some c' →
      groupsHoldOnlyOptions c' = true) := by
  unfold groupsHoldOnlyOptions at hWF
  refine ⟨?_, ?_, ?_, ?_⟩
  · intro mode tgid txt newId now c' h
    simp only [handleAddItem] at h
    rcases ht : jsTrim txt == "" with _ | _
    · rw [ht] at h
      simp only [Bool.false_eq_true, if_false, Option.some.injEq] at h
      rw [← h]
      unfold groupsHoldOnlyOptions
      cases mode with
      | createOption =>
        simp only [show (ModalMode.createOption == ModalMode.createOption) = true
          from rfl, Bool.true_and]
        rcases htg : tgid.getD "" == "" with _ | _
        · simp only [htg, Bool.not_false, if_true]
          exact all_WF_prependIntoGroupById _ (Item.option newId txt now) rfl _ hWF
        · simp only [htg, Bool.not_true, Bool.false_eq_true, if_false,
            Item.isGroup]
          exact all_insertBeforeFirstOption _ (Item.option newId txt now) _ hWF rfl
      | createGroup =>
        simp only [show (ModalMode.createGroup == ModalMode.createOption) = false
          from rfl, Bool.false_and, Bool.false_eq_true, if_false, Item.isGroup,
          if_true, List.all_cons, Bool.and_eq_true]
        exact ⟨rfl, hWF⟩
    · rw [ht] at h; simp at h
  · intro itemId pgid now c' h
    simp only [handleDeleteItem] at h
    rcases hp : pgid.getD "" == "" with _ | _
    · rw [hp] at h
      simp only [Bool.not_false, if_true] at h
      rcases hd : deleteFromNamedGroup cat.items (pgid.getD "") itemId with _ | l'
      · rw [hd] at h; simp at h
      · rw [hd] at h
        simp only [Except.ok.injEq] at h
        rw [← h]
        unfold groupsHoldOnlyOptions
        exact deleteFromNamedGroup_WF _ _ _ _ hd hWF
    · rw [hp] at h
      simp only [Bool.not_true, Bool.false_eq_true, if_false, Except.ok.injEq] at h
      rw [← h]
      unfold groupsHoldOnlyOptions
      rw [List.all_eq_true]
      intro i hi
      exact List.all_eq_true.mp hWF i (List.mem_of_mem_filter hi)
  · intro sf activeId over now c' h
    simp only [handleDragEnd] at h
    split at h
    · simp at h
    · split at h
      · simp at h
      · split at h
        · simp at h
        · split at h
          · simp only [Option.some.injEq] at h
            rw [← h]
            unfold groupsHoldOnlyOptions
            exact all_arrayMove _ _ _ _ hWF
          · split at h
            · simp only [Option.some.injEq] at h
              rw [← h]
              unfold groupsHoldOnlyOptions
              exact all_arrayMove _ _ _ _ hWF
            · split at h
              · simp at h
              · split at h
                · simp at h
                · rename_i g hget
                  split at h
                  · simp only [Option.some.injEq] at h
                    rw [← h]
                    unfold groupsHoldOnlyOptions
                    have hg : g.isWellFormed = true :=
                      List.all_eq_true.mp hWF g (List.get?_mem hget)
                    refine all_set _ _ _ _ hWF ?_
                    cases g with
                    | option a b c => simpa [Item.withItems] using hg
                    | group gi gt gc subs =>
                      simp only [Item.isWellFormed] at hg
                      simp only [Item.withItems, Item.subItems, Item.isWellFormed]
                      exact all_arrayMove _ _ _ _ hg
                  · simp at h
  · intro oid dest now c' hopt h
    simp only [handleMoveOption] at h
    rcases ho : oid == "" with _ | _
    · rw [ho] at h
      simp only [Bool.false_eq_true, if_false] at h
      rcases hrem : removeFirstById cat.items oid with _ | ⟨x, items'⟩
      · rw [hrem] at h
        rcases hrg : removeFromGroups cat.items oid with _ | ⟨x, items'⟩
        · rw [hrg] at h; simp at h
        · rw [hrg] at h
          simp only [Option.some.injEq] at h
          rw [← h]
          unfold groupsHoldOnlyOptions
          rcases removeFromGroups_spec oid cat.items x items' hrg with
            ⟨pre, gi, gt, gc, s1, s2, post, h1, h2, h3⟩
          have hxopt : x.isOption = true := by
            have hgmem : Item.group gi gt gc (s1 ++ x :: s2) ∈ cat.items := by
              rw [h1]; simp
            have hgWF := List.all_eq_true.mp hWF _ hgmem
            simp only [Item.isWellFormed] at hgWF
            exact List.all_eq_true.mp hgWF x (by simp)
          have hWFx : x.isWellFormed = true := Item.isWellFormed_of_isOption x hxopt
          have hWFg : (Item.group gi gt gc (s1 ++ x :: s2)).isWellFormed = true := by
            refine List.all_eq_true.mp hWF _ ?_
            rw [h1]; simp
          have hWFg2 : (Item.group gi gt gc (s1 ++ s2)).isWellFormed = true := by
            simp only [Item.isWellFormed, List.all_append, List.all_cons,
              Bool.and_eq_true] at hWFg ⊢
            exact ⟨hWFg.1, hWFg.2.2⟩
          have hWFrest : ∀ i ∈ pre ++ post, i.isWellFormed = true := by
            intro i hi
            refine List.all_eq_true.mp hWF i ?_
            rw [h1]
            rcases List.mem_append.mp hi with hip | hip
            · exact List.mem_append_left _ hip
            · exact List.mem_append_right _ (List.mem_cons_of_mem _ hip)
          have hWFall : items'.all Item.isWellFormed = true := by
            rw [h2, List.all_eq_true]
            intro i hi
            rcases List.mem_append.mp hi with hip | hip
            · exact hWFrest i (List.mem_append_left _ hip)
            · rcases List.mem_cons.mp hip with hig | hip
              · rw [hig]; exact hWFg2
              · exact hWFrest i (List.mem_append_right _ hip)
          split
          · exact all_insertBeforeFirstOption _ _ _ hWFall hWFx
          · exact all_WF_appendToGroupById _ _ hxopt _ hWFall
      · rw [hrem] at h
        simp only [Option.some.injEq] at h
        rw [← h]
        unfold groupsHoldOnlyOptions
        rcases removeFirstById_spec oid cat.items x items' hrem with
          ⟨pre, post, h1, h2, h3, _⟩
        have hxopt : x.isOption = true := by
          refine hopt x ?_ h3
          rw [h1]; simp
        have hWFx : x.isWellFormed = true := Item.isWellFormed_of_isOption x hxopt
        have hWFall : items'.all Item.isWellFormed = true := by
          rw [h2]
          rw [h1] at hWF
          simp only [List.all_append, List.all_cons, Bool.and_eq_true] at hWF ⊢
          exact ⟨hWF.1, hWF.2.2⟩
        split
        · exact all_insertBeforeFirstOption _ _ _ hWFall hWFx
        · exact all_WF_appendToGroupById _ _ hxopt _ hWFall
    · rw [ho] at h; simp at h


/-- Witness for C2's amended statement: moving the nested option `"o1"` of a
well-formed category to the root keeps every group holding only options. -/
theorem c2_operations_preserve_group_invariant_witness :
    groupsHoldOnlyOptions
      { id := "c", title := "C", description := none, createdAt := 0,
        modifiedAt := 5,
        items := [Item.group "g1" "G" 0 [], Item.option "o1" "t" 0,
          Item.option "o2" "u" 1] } = true :=
  (c2_operations_preserve_group_invariant
    { id := "c", title := "C", description := none, createdAt := 0,
      modifiedAt := 0,
      items := [Item.group "g1" "G" 0 [Item.option "o1" "t" 0],
        Item.option "o2" "u" 1] }
    (by decide)).2.2.2 "o1" "ROOT" 5 _ (by decide) rfl

/-! ## Claim C6: root insertion positions -/

theorem insertBeforeFirstOption_eq_takeDrop (x : Item) :
    ∀ l : List Item, insertBeforeFirstOption l x =
      l.takeWhile (fun i => !i.isOption) ++
        x :: l.dropWhile (fun i => !i.isOption) := by
  intro l
  induction l with
  | nil => simp [insertBeforeFirstOption]
  | cons i rest ih =>
    simp only [insertBeforeFirstOption]
    rcases hio : i.isOption with _ | _
    · simp [List.takeWhile_cons, List.dropWhile_cons, hio, ih]
    · simp [List.takeWhile_cons, List.dropWhile_cons, hio]

theorem any_isGroup_false_of_all_isOption (l : List Item)
    (h : l.all Item.isOption = true) : l.any Item.isGroup = false := by
  rw [List.any_eq_false]
  intro i hi
  have := List.all_eq_true.mp h i hi
  cases i <;> simp_all [Item.isOption, Item.isGroup]

theorem insertBeforeFirstOption_of_no_group (x : Item) :
    ∀ l : List Item, l.any Item.isGroup = false →
      insertBeforeFirstOption l x = x :: l := by
  intro l h
  cases l with
  | nil => rfl
  | cons i rest =>
    simp only [List.any_cons, Bool.or_eq_false_iff] at h
    have : i.isOption = true := Item.isOption_of_not_isGroup i h.1
    simp [insertBeforeFirstOption, this]

theorem insertBeforeFirstOption_eq_spec_of_segregated (x : Item) :
    ∀ l : List Item, segregatedItems l = true →
      insertBeforeFirstOption l x = insertAfterLastGroupSpec l x := by
  intro l
  induction l with
  | nil => intro _; simp [insertBeforeFirstOption, insertAfterLastGroupSpec]
  | cons i rest ih =>
    intro hseg
    cases i with
    | option a b c =>
      simp only [segregatedItems, Item.isOption, if_true] at hseg
      have hng : rest.any Item.isGroup = false :=
        any_isGroup_false_of_all_isOption rest hseg
      simp [insertBeforeFirstOption, Item.isOption, insertAfterLastGroupSpec,
        List.any_cons, Item.isGroup, hng]
    | group gi gt gc subs =>
      simp only [segregatedItems, Item.isOption, Bool.false_eq_true, if_false]
        at hseg
      simp only [insertBeforeFirstOption, Item.isOption, Bool.false_eq_true,
        if_false, insertAfterLastGroupSpec, List.any_cons, Item.isGroup,
        Bool.true_or, if_true, insertAfterLastGroupAux]
      rcases hrg : rest.any Item.isGroup with _ | _
      · simp only [Bool.false_eq_true, if_false, List.cons.injEq, true_and]
        have := insertBeforeFirstOption_of_no_group x rest hrg
        simp [this]
      · simp only [if_true, List.cons.injEq, true_and]
        have := ih hseg
        rw [insertAfterLastGroupSpec, hrg, if_pos rfl] at this
        exact this

/-- C6 counterexample.  On items `[option "o", group "g"]` — a shape the
merge can produce on import, since it appends new groups at the end — the code
inserts a new root option at position 0 (before the first option), while the
"equivalently, after the last Group" wording of the claim puts it at the
end; the two positions differ. -/
theorem c6_counterexample :
    (handleAddItem
      { id := "c", title := "C", description := none, createdAt := 0,
        modifiedAt := 0,
        items := [Item.option "o" "t" 0, Item.group "g" "G" 0 []] }
      ModalMode.createOption none "new" "nx" 5).map Category.items =
      some [Item.option "nx" "new" 5, Item.option "o" "t" 0,
        Item.group "g" "G" 0 []] ∧
    insertAfterLastGroupSpec
      [Item.option "o" "t" 0, Item.group "g" "G" 0 []]
      (Item.option "nx" "new" 5) =
      [Item.option "o" "t" 0, Item.group "g" "G" 0 [],
        Item.option "nx" "new" 5] ∧
    (some [Item.option "nx" "new" 5, Item.option "o" "t" 0,
        Item.group "g" "G" 0 []] ≠
      some [Item.option "o" "t" 0, Item.group "g" "G" 0 [],
        Item.option "nx" "new" 5]) := by
  refine ⟨rfl, rfl, ?_⟩
  intro hc
  simp at hc

/-- C6 (corrected).  With a non-blank title: a new group is prepended to the
items; a new root option is inserted immediately before the first existing
option — i.e. after the longest prefix without options — which appends it
when no option exists; and when every group precedes every option (as in any
category built by the detail view alone) this position coincides with the
spec's "after the last Group, or at position 0 if no group exists". -/
theorem c6_root_insertion (cat : Category) (tgid : Option String)
    (txt newId : String) (now : Nat) (ht : (jsTrim txt == "") = false) :
    (handleAddItem cat ModalMode.createGroup tgid txt newId now =
      some { cat with
        items := Item.group newId txt now [] :: cat.items
        modifiedAt := now }) ∧
    (handleAddItem cat ModalMode.createOption none txt newId now =
      some { cat with
        items :=
          cat.items.takeWhile (fun i => !i.isOption) ++
            Item.option newId txt now ::
              cat.items.dropWhile (fun i => !i.isOption)
        modifiedAt := now }) ∧
    (segregatedItems cat.items = true →
      handleAddItem cat ModalMode.createOption none txt newId now =
        some { cat with
          items := insertAfterLastGroupSpec cat.items (Item.option newId txt now)
          modifiedAt := now }) := by
  refine ⟨?_, ?_, ?_⟩
  · simp [handleAddItem, ht, Item.isGroup]
  · simp [handleAddItem, ht, Item.isGroup,
      insertBeforeFirstOption_eq_takeDrop]
  · intro hseg
    simp [handleAddItem, ht, Item.isGroup,
      insertBeforeFirstOption_eq_spec_of_segregated _ _ hseg]

/-- Witness for C6's amended statement: inserting the option `"hello"` into
a segregated category `[group, option]` lands between the group block and
the option block. -/
theorem c6_root_insertion_witness :
    handleAddItem
      { id := "c", title := "C", description := none, createdAt := 0,
        modifiedAt := 0,
        items := [Item.group "g" "G" 0 [], Item.option "o" "t" 0] }
      ModalMode.createOption none "hello" "nx" 5 =
      some { id := "c"
             title := "C"
             description := none
             createdAt := 0
             modifiedAt := 5
             items := [Item.group "g" "G" 0 [], Item.option "nx" "hello" 5,
               Item.option "o" "t" 0] } := by
  have h := (c6_root_insertion
    { id := "c", title := "C", description := none, createdAt := 0,
      modifiedAt := 0,
      items := [Item.group "g" "G" 0 [], Item.option "o" "t" 0] }
    none "hello" "nx" 5 (by decide)).2.1
  simpa using h

/-! ## Claim C1: option-count conservation of `handleMoveOption` -/

theorem sum_optionCount_insertBeforeFirstOption (x : Item) :
    ∀ l : List Item,
      ((insertBeforeFirstOption l x).map Item.optionCount).sum =
        x.optionCount + (l.map Item.optionCount).sum := by
  intro l
  induction l with
  | nil => simp [insertBeforeFirstOption]
  | cons i rest ih =>
    simp only [insertBeforeFirstOption]
    rcases hio : i.isOption with _ | _
    · simp only [Bool.false_eq_true, if_false, List.map_cons, List.sum_cons, ih]
      omega
    · simp [List.map_cons, List.sum_cons]

theorem sum_optionCount_appendToGroupById (gid : String) (x : Item)
    (hx : x.isOption = true) :
    ∀ l : List Item,
      (∃ g ∈ l, g.id = gid ∧ g.isGroup = true) →
      (∀ i ∈ l, i.id = gid → i.isGroup = true) →
      ((appendToGroupById l gid x).map Item.optionCount).sum =
        (l.map Item.optionCount).sum + 1 := by
  intro l
  induction l with
  | nil => intro hex _; exact absurd hex (by simp)
  | cons i rest ih =>
    intro hex hall
    simp only [appendToGroupById]
    rcases hid : i.id == gid with _ | _
    · simp only [Bool.false_eq_true, if_false, List.map_cons, List.sum_cons]
      have hex' : ∃ g ∈ rest, g.id = gid ∧ g.isGroup = true := by
        rcases hex with ⟨g, hg, hg2, hg3⟩
        rcases List.mem_cons.mp hg with hgi | hgr
        · exfalso
          rw [hgi] at hg2
          rw [hg2] at hid
          simp at hid
        · exact ⟨g, hgr, hg2, hg3⟩
      rw [ih hex' (fun j hj hj2 => hall j (List.mem_cons_of_mem _ hj) hj2)]
      omega
    · have higrp := hall i (List.mem_cons_self _ _) (eq_of_beq hid)
      cases i with
      | option a b c => simp [Item.isGroup] at higrp
      | group gi gt gc subs =>
        simp only [eq_self_iff_true, if_true, List.map_cons, List.sum_cons,
          Item.optionCount, List.countP_append]
        have : List.countP Item.isOption [x] = 1 := by
          simp [List.countP_cons, hx]
        omega

/-- C1 counterexample.  Moving the only root option to the destination id
`"nope"`, which resolves to no group, is not a no-op: the option is spliced
out of the root and never reinserted, so the items become empty and the
total option count drops from 1 to 0. -/
theorem c1_counterexample :
    (handleMoveOption
      { id := "c", title := "C", description := none, createdAt := 0,
        modifiedAt := 0, items := [Item.option "o" "t" 0] }
      "o" "nope" 5).map totalOptions = some 0 ∧
    totalOptions
      { id := "c", title := "C", description := none, createdAt := 0,
        modifiedAt := 0, items := [Item.option "o" "t" 0] } = 1 ∧
    (handleMoveOption
      { id := "c", title := "C", description := none, createdAt := 0,
        modifiedAt := 0, items := [Item.option "o" "t" 0] }
      "o" "nope" 5).map Category.items = some [] :=
  ⟨rfl, rfl, rfl⟩

/-- C1 (corrected).  On an invariant-satisfying category, `handleMoveOption`
with an id that names no root group preserves the total option count
whenever the destination is the root sentinel or an id all of whose root
matches are groups, at least one existing; with a destination resolving to
no group the removed option is dropped instead (see the counterexample). -/
theorem c1_moveOption_conserves_options (cat : Category) (oid dest : String)
    (now : Nat)
    (hWF : groupsHoldOnlyOptions cat = true)
    (hopt : ∀ i ∈ cat.items, i.id = oid → i.isOption = true)
    (hdest : (dest == "ROOT") = true ∨
      ((∃ g ∈ cat.items, g.id = dest ∧ g.isGroup = true) ∧
       (∀ i ∈ cat.items, i.id = dest → i.isGroup = true))) :
    ∀ c', handleMoveOption cat oid dest now = some c' →
      totalOptions c' = totalOptions cat := by
  intro c' h
  unfold groupsHoldOnlyOptions at hWF
  simp only [handleMoveOption] at h
  rcases ho : oid == "" with _ | _
  · rw [ho] at h
    simp only [Bool.false_eq_true, if_false] at h
    rcases hrem : removeFirstById cat.items oid with _ | ⟨x, items'⟩
    · rw [hrem] at h
      rcases hrg : removeFromGroups cat.items oid with _ | ⟨x, items'⟩
      · rw [hrg] at h; simp at h
      · rw [hrg] at h
        simp only [Option.some.injEq] at h
        rw [← h]
        unfold totalOptions
        rcases removeFromGroups_spec oid cat.items x items' hrg with
          ⟨pre, gi, gt, gc, s1, s2, post, h1, h2, h3⟩
        have hxopt : x.isOption = true := by
          have hgmem : Item.group gi gt gc (s1 ++ x :: s2) ∈ cat.items := by
            rw [h1]; simp
          have hgWF := List.all_eq_true.mp hWF _ hgmem
          simp only [Item.isWellFormed] at hgWF
          exact List.all_eq_true.mp hgWF x (by simp)
        have hsum : (cat.items.map Item.optionCount).sum =
            (items'.map Item.optionCount).sum + 1 := by
          rw [h1, h2]
          simp only [List.map_append, List.sum_append, List.map_cons,
            List.sum_cons, Item.optionCount, List.countP_append,
            List.countP_cons, hxopt, if_true, eq_self_iff_true]
          omega
        rcases hdest with hroot | ⟨hex, hall⟩
        · rw [hroot]
          simp only [if_true]
          rw [sum_optionCount_insertBeforeFirstOption]
          simp only [Item.optionCount, hxopt]
          cases x with
          | option a b c => simp [Item.optionCount]; omega
          | group a b c d => simp [Item.isOption] at hxopt
        · have hex' : ∃ g ∈ items', g.id = dest ∧ g.isGroup = true := by
            rcases hex with ⟨g, hg, hg2, hg3⟩
            rw [h1] at hg
            rw [h2]
            rcases List.mem_append.mp hg with hgp | hgp
            · exact ⟨g, List.mem_append_left _ hgp, hg2, hg3⟩
            · rcases List.mem_cons.mp hgp with hgm | hgp
              · refine ⟨Item.group gi gt gc (s1 ++ s2), ?_, ?_, rfl⟩
                · exact List.mem_append_right _ (List.mem_cons_self _ _)
                · rw [hgm] at hg2
                  exact hg2
              · exact ⟨g, List.mem_append_right _ (List.mem_cons_of_mem _ hgp),
                  hg2, hg3⟩
          have hall' : ∀ i ∈ items', i.id = dest → i.isGroup = true := by
            intro i hi hi2
            rw [h2] at hi
            rcases List.mem_append.mp hi with hip | hip
            · exact hall i (by rw [h1]; exact List.mem_append_left _ hip) hi2
            · rcases List.mem_cons.mp hip with him | hip
              · rw [him]; rfl
              · exact hall i (by
                  rw [h1]
                  exact List.mem_append_right _ (List.mem_cons_of_mem _ hip)) hi2
          split
          · rw [sum_optionCount_insertBeforeFirstOption]
            simp only [Item.optionCount]
            cases x with
            | option a b c => simp [Item.optionCount] at hsum ⊢; omega
            | group a b c d => simp [Item.isOption] at hxopt
          · rw [sum_optionCount_appendToGroupById dest x hxopt items' hex' hall']
            omega
    · rw [hrem] at h
      simp only [Option.some.injEq] at h
      rw [← h]
      unfold totalOptions
      rcases removeFirstById_spec oid cat.items x items' hrem with
        ⟨pre, post, h1, h2, h3, _⟩
      have hxopt : x.isOption = true := by
        refine hopt x ?_ h3
        rw [h1]; simp
      have hsum : (cat.items.map Item.optionCount).sum =
          (items'.map Item.optionCount).sum + 1 := by
        rw [h1, h2]
        cases x with
        | option a b c =>
          simp only [List.map_append, List.sum_append, List.map_cons,
            List.sum_cons, Item.optionCount]
          omega
        | group a b c d => simp [Item.isOption] at hxopt
      rcases hdest with hroot | ⟨hex, hall⟩
      · rw [hroot]
        simp only [if_true]
        rw [sum_optionCount_insertBeforeFirstOption]
        cases x with
        | option a b c => simp only [Item.optionCount] at hsum ⊢; omega
        | group a b c d => simp [Item.isOption] at hxopt
      · have hxne : ∀ g ∈ cat.items, g.id = dest ∧ g.isGroup = true → g ≠ x := by
          intro g _ hg2 hgx
          rw [hgx] at hg2
          have := hg2.2
          cases x with
          | option a b c => simp [Item.isGroup] at this
          | group a b c d => simp [Item.isOption] at hxopt
        have hex' : ∃ g ∈ items', g.id = dest ∧ g.isGroup = true := by
          rcases hex with ⟨g, hg, hg2, hg3⟩
          have hgne : g ≠ x := hxne g hg ⟨hg2, hg3⟩
          rw [h1] at hg
          rw [h2]
          rcases List.mem_append.mp hg with hgp | hgp
          · exact ⟨g, List.mem_append_left _ hgp, hg2, hg3⟩
          · rcases List.mem_cons.mp hgp with hgm | hgp
            · exact absurd hgm hgne
            · exact ⟨g, List.mem_append_right _ hgp, hg2, hg3⟩
        have hall' : ∀ i ∈ items', i.id = dest → i.isGroup = true := by
          intro i hi hi2
          refine hall i ?_ hi2
          rw [h1]
          rw [h2] at hi
          rcases List.mem_append.mp hi with hip | hip
          · exact List.mem_append_left _ hip
          · exact List.mem_append_right _ (List.mem_cons_of_mem _ hip)
        split
        · rw [sum_optionCount_insertBeforeFirstOption]
          cases x with
          | option a b c => simp only [Item.optionCount] at hsum ⊢; omega
          | group a b c d => simp [Item.isOption] at hxopt
        · rw [sum_optionCount_appendToGroupById dest x hxopt items' hex' hall']
          omega
  · rw [ho] at h; simp at h

/-- Witness for C1's amended statement: moving the root option `"o2"` into
the group `"g1"` keeps the total option count at 2. -/
theorem c1_moveOption_conserves_options_witness :
    totalOptions
      { id := "c", title := "C", description := none, createdAt := 0,
        modifiedAt := 5,
        items := [Item.group "g1" "G" 0 [Item.option "o1" "t" 0,
          Item.option "o2" "u" 1]] } =
      totalOptions
        { id := "c", title := "C", description := none, createdAt := 0,
          modifiedAt := 0,
          items := [Item.group "g1" "G" 0 [Item.option "o1" "t" 0],
            Item.option "o2" "u" 1] } :=
  c1_moveOption_conserves_options
    { id := "c", title := "C", description := none, createdAt := 0,
      modifiedAt := 0,
      items := [Item.group "g1" "G" 0 [Item.option "o1" "t" 0],
        Item.option "o2" "u" 1] }
    "o2" "g1" 5 (by decide) (by decide)
    (Or.inr ⟨⟨Item.group "g1" "G" 0 [Item.option "o1" "t" 0],
      List.mem_cons_self _ _, rfl, rfl⟩, by decide⟩)
    _ rfl

/-! ## Claim C8: relative order of the group and option sections -/

@[simp] theorem Item.id_withItems (i : Item) (l : List Item) :
    (i.withItems l).id = i.id := by cases i <;> rfl

@[simp] theorem Item.isOption_withItems (i : Item) (l : List Item) :
    (i.withItems l).isOption = i.isOption := by cases i <;> rfl

@[simp] theorem Item.isGroup_withItems (i : Item) (l : List Item) :
    (i.withItems l).isGroup = i.isGroup := by cases i <;> rfl

theorem optionIds_cons_congr (i : Item) (l l' : List Item)
    (h : optionIds l = optionIds l') : optionIds (i :: l) = optionIds (i :: l') := by
  unfold optionIds at h ⊢
  simp only [List.filter_cons]
  rcases hio : i.isOption with _ | _
  · simpa using h
  · simpa using h

theorem groupIds_cons_congr (i : Item) (l l' : List Item)
    (h : groupIds l = groupIds l') : groupIds (i :: l) = groupIds (i :: l') := by
  unfold groupIds at h ⊢
  simp only [List.filter_cons]
  rcases hig : i.isGroup with _ | _
  · simpa using h
  · simpa using h

theorem filter_insertIdx_of_neg (p : Item → Bool) (x : Item)
    (hx : p x = false) :
    ∀ (j : Nat) (l : List Item), (l.insertIdx j x).filter p = l.filter p := by
  intro j
  induction j with
  | zero => intro l; rw [List.insertIdx_zero]; simp [List.filter_cons, hx]
  | succ n ih =>
    intro l
    cases l with
    | nil => simp [List.insertIdx]
    | cons a as => simp [List.insertIdx_succ_cons, List.filter_cons, ih as]

theorem filter_eraseIdx_of_neg (p : Item → Bool) (x : Item) :
    ∀ (i : Nat) (l : List Item), l.get? i = some x → p x = false →
      (l.eraseIdx i).filter p = l.filter p := by
  intro i
  induction i with
  | zero =>
    intro l hget hx
    cases l with
    | nil => simp at hget
    | cons a as =>
      simp only [List.get?] at hget
      injection hget with ha
      rw [← ha] at hx
      simp [List.eraseIdx, List.filter_cons, hx]
  | succ n ih =>
    intro l hget hx
    cases l with
    | nil => simp at hget
    | cons a as =>
      simp only [List.get?] at hget
      simp [List.eraseIdx, List.filter_cons, ih as hget hx]

theorem filter_arrayMove_of_neg (p : Item → Bool) (l : List Item) (i j : Nat)
    (x : Item) (hget : l.get? i = some x) (hx : p x = false) :
    (arrayMove l i j).filter p = l.filter p := by
  unfold arrayMove
  rw [hget]
  rw [filter_insertIdx_of_neg p x hx, filter_eraseIdx_of_neg p x i l hget hx]

theorem get_findIdx_by_id (a : String) :
    ∀ (l : List Item) (g : Item), g ∈ l → g.id = a →
      (l.map Item.id).Nodup →
      l.get? (l.findIdx (fun i => i.id == a)) = some g := by
  intro l
  induction l with
  | nil => intro g hg _ _; simp at hg
  | cons i rest ih =>
    intro g hg hga hnd
    simp only [List.map_cons, List.nodup_cons] at hnd
    rw [List.findIdx_cons]
    rcases hid : i.id == a with _ | _
    · simp only [cond_false]
      have hgr : g ∈ rest := by
        rcases List.mem_cons.mp hg with hgi | hgr
        · exfalso
          rw [hgi] at hga
          rw [hga] at hid
          simp at hid
        · exact hgr
      simpa using ih g hgr hga hnd.2
    · simp only [cond_true]
      have : g = i := by
        rcases List.mem_cons.mp hg with hgi | hgr
        · exact hgi
        · exfalso
          have : i.id = a := eq_of_beq hid
          rw [← hga] at this
          exact hnd.1 (this ▸ List.mem_map_of_mem Item.id hgr)
      simp [this]

theorem itemsIds_append : ∀ (l1 l2 : List Item),
    itemsIds (l1 ++ l2) = itemsIds l1 ++ itemsIds l2 := by
  intro l1 l2
  induction l1 with
  | nil => simp [itemsIds]
  | cons i rest ih => simp [itemsIds, ih]

theorem mem_itemsIds_of_mem_map_id (s : String) :
    ∀ l : List Item, s ∈ l.map Item.id → s ∈ itemsIds l := by
  intro l
  induction l with
  | nil => simp
  | cons i rest ih =>
    intro h
    simp only [List.map_cons, List.mem_cons] at h
    simp only [itemsIds, List.mem_cons, List.mem_append]
    rcases h with h | h
    · exact Or.inl h
    · exact Or.inr (Or.inr (ih h))

theorem nodup_map_id_of_nodup_itemsIds :
    ∀ l : List Item, (itemsIds l).Nodup → (l.map Item.id).Nodup := by
  intro l
  induction l with
  | nil => intro _; simp
  | cons i rest ih =>
    intro h
    simp only [itemsIds, List.nodup_cons, List.nodup_append] at h
    simp only [List.map_cons, List.nodup_cons]
    constructor
    · intro hmem
      exact h.1 (List.mem_append_right _ (mem_itemsIds_of_mem_map_id _ _ hmem))
    · exact ih h.2.2.1

theorem sublist_insertBeforeFirstOption (x : Item) :
    ∀ l : List Item, List.Sublist l (insertBeforeFirstOption l x) := by
  intro l
  induction l with
  | nil => simp [insertBeforeFirstOption]
  | cons i rest ih =>
    simp only [insertBeforeFirstOption]
    rcases hio : i.isOption with _ | _
    · simp only [Bool.false_eq_true, if_false]
      exact List.Sublist.cons₂ i ih
    · simp only [if_true]
      exact List.sublist_cons_of_sublist x (List.Sublist.refl _)

theorem prependIntoGroupById_projections (gid : String) (x : Item) :
    ∀ l : List Item,
      optionIds (prependIntoGroupById l gid x) = optionIds l ∧
      groupIds (prependIntoGroupById l gid x) = groupIds l := by
  intro l
  induction l with
  | nil => simp [prependIntoGroupById]
  | cons i rest ih =>
    simp only [prependIntoGroupById]
    rcases hid : i.id == gid with _ | _
    · simp only [Bool.false_eq_true, if_false]
      exact ⟨optionIds_cons_congr i _ _ ih.1, groupIds_cons_congr i _ _ ih.2⟩
    · cases i with
      | option a b c => simp
      | group gi gt gc subs =>
        unfold optionIds groupIds
        simp [List.filter_cons, Item.isOption, Item.isGroup, Item.id]

theorem appendToGroupById_projections (gid : String) (x : Item) :
    ∀ l : List Item,
      optionIds (appendToGroupById l gid x) = optionIds l ∧
      groupIds (appendToGroupById l gid x) = groupIds l := by
  intro l
  induction l with
  | nil => simp [appendToGroupById]
  | cons i rest ih =>
    simp only [appendToGroupById]
    rcases hid : i.id == gid with _ | _
    · simp only [Bool.false_eq_true, if_false]
      exact ⟨optionIds_cons_congr i _ _ ih.1, groupIds_cons_congr i _ _ ih.2⟩
    · cases i with
      | option a b c => simp
      | group gi gt gc subs =>
        unfold optionIds groupIds
        simp [List.filter_cons, Item.isOption, Item.isGroup, Item.id]

theorem deleteFromNamedGroup_projections (pgid itemId : String) :
    ∀ (l l' : List Item), deleteFromNamedGroup l pgid itemId = Except.ok l' →
      optionIds l' = optionIds l ∧
      groupIds l' = groupIds l := by
  intro l
  induction l with
  | nil =>
    intro l' h
    simp only [deleteFromNamedGroup, Except.ok.injEq] at h
    simp [← h]
  | cons i rest ih =>
    intro l' h
    simp only [deleteFromNamedGroup] at h
    rcases hid : i.id == pgid with _ | _
    · rw [hid] at h
      simp only [Bool.false_eq_true, if_false] at h
      rcases hr : deleteFromNamedGroup rest pgid itemId with _ | rest'
      · rw [hr] at h; simp at h
      · rw [hr] at h
        simp only [Except.ok.injEq] at h
        rw [← h]
        have := ih rest' hr
        exact ⟨optionIds_cons_congr i _ _ this.1, groupIds_cons_congr i _ _ this.2⟩
    · rw [hid] at h
      cases i with
      | option a b c => simp at h
      | group gi gt gc subs =>
        simp only [if_true, Except.ok.injEq] at h
        rw [← h]
        unfold optionIds groupIds
        simp [List.filter_cons, Item.isOption, Item.isGroup, Item.id]

theorem projections_set_same_shape :
    ∀ (l : List Item) (k : Nat) (g x : Item), l.get? k = some g →
      x.id = g.id → x.isOption = g.isOption → x.isGroup = g.isGroup →
      optionIds (l.set k x) = optionIds l ∧
      groupIds (l.set k x) = groupIds l := by
  intro l
  induction l with
  | nil => intro k g x hget _ _ _; simp at hget
  | cons i rest ih =>
    intro k g x hget hid hio hig
    cases k with
    | zero =>
      simp only [List.get?] at hget
      injection hget with hg
      rw [← hg] at hid hio hig
      rcases hoi : i.isOption with _ | _
      · have higr : i.isGroup = true := Item.isGroup_of_not_isOption i hoi
        unfold optionIds groupIds
        simp [List.set, List.filter_cons, hio, hig, hid, hoi, higr]
      · have higr : i.isGroup = false := by
          cases i <;> simp_all [Item.isOption, Item.isGroup]
        unfold optionIds groupIds
        simp [List.set, List.filter_cons, hio, hig, hid, hoi, higr]
    | succ n =>
      simp only [List.get?] at hget
      have := ih n g x hget hid hio hig
      have h1 : optionIds ((i :: rest).set (n + 1) x) =
          optionIds (i :: rest.set n x) := rfl
      have h2 : groupIds ((i :: rest).set (n + 1) x) =
          groupIds (i :: rest.set n x) := rfl
      rw [h1, h2]
      exact ⟨optionIds_cons_congr i _ _ this.1, groupIds_cons_congr i _ _ this.2⟩

theorem filter_isOption_insertBeforeFirstOption (x : Item)
    (hx : x.isOption = true) :
    ∀ l : List Item, (insertBeforeFirstOption l x).filter Item.isOption =
      x :: l.filter Item.isOption := by
  intro l
  induction l with
  | nil => simp [insertBeforeFirstOption, List.filter_cons, hx]
  | cons i rest ih =>
    simp only [insertBeforeFirstOption]
    rcases hio : i.isOption with _ | _
    · simp only [Bool.false_eq_true, if_false]
      simp [List.filter_cons, hio, ih]
    · simp [List.filter_cons, hio, hx]

theorem filter_isGroup_insertBeforeFirstOption (x : Item)
    (hx : x.isOption = true) :
    ∀ l : List Item, (insertBeforeFirstOption l x).filter Item.isGroup =
      l.filter Item.isGroup := by
  intro l
  have hxg : x.isGroup = false := by cases x <;> simp_all [Item.isOption, Item.isGroup]
  induction l with
  | nil => simp [insertBeforeFirstOption, List.filter_cons, hxg]
  | cons i rest ih =>
    simp only [insertBeforeFirstOption]
    rcases hio : i.isOption with _ | _
    · simp only [Bool.false_eq_true, if_false]
      simp [List.filter_cons, ih]
    · simp [List.filter_cons, hxg]

theorem erase_append_cons_self (oid : String) :
    ∀ (A B : List String), (∀ s ∈ A, (s == oid) = false) →
      (A ++ oid :: B).erase oid = A ++ B := by
  intro A B h
  induction A with
  | nil => simp [List.erase_cons_head]
  | cons s rest ih =>
    have hs := h s (List.mem_cons_self _ _)
    simp only [List.cons_append, List.erase_cons, hs, Bool.false_eq_true,
      if_false]
    rw [ih (fun t ht => h t (List.mem_cons_of_mem _ ht))]

theorem filter_any_id_false (l : List Item) (q : Item → Bool) (a : String)
    (h : l.all (fun i => !(i.id == a)) = true) :
    (l.filter q).any (fun i => i.id == a) = false := by
  rw [List.any_eq_false]
  intro x hx
  have := List.all_eq_true.mp h x (List.mem_of_mem_filter hx)
  simpa using this

theorem group_any_id_false_of_option_any (l : List Item) (a : String)
    (h : (l.filter Item.isOption).any (fun o => o.id == a) = true)
    (hnd : (l.map Item.id).Nodup) :
    (l.filter Item.isGroup).any (fun g => g.id == a) = false := by
  rcases hg : (l.filter Item.isGroup).any (fun g => g.id == a) with _ | _
  · rfl
  · exfalso
    obtain ⟨o, hof, hoa⟩ := List.any_eq_true.mp h
    obtain ⟨g, hgf, hga⟩ := List.any_eq_true.mp hg
    have heq : g = o := List.inj_on_of_nodup_map hnd
      (List.mem_of_mem_filter hgf) (List.mem_of_mem_filter hof)
      (by rw [eq_of_beq hga, eq_of_beq hoa])
    have h1 := List.of_mem_filter hgf
    have h2 := List.of_mem_filter hof
    rw [heq] at h1
    cases o <;> simp_all [Item.isGroup, Item.isOption]

theorem optionIds_insertBeforeFirstOption (x : Item) (hx : x.isOption = true)
    (l : List Item) :
    optionIds (insertBeforeFirstOption l x) = x.id :: optionIds l := by
  unfold optionIds
  rw [filter_isOption_insertBeforeFirstOption x hx l]
  simp

theorem groupIds_insertBeforeFirstOption (x : Item) (hx : x.isOption = true)
    (l : List Item) :
    groupIds (insertBeforeFirstOption l x) = groupIds l := by
  unfold groupIds
  rw [filter_isGroup_insertBeforeFirstOption x hx l]

/-- C8 counterexample.  Moving the root option `"o2"` of `[o1, o2]` to the
root sentinel splices it out and reinserts it before the first option, so
the relative order of the root options flips from `[o1, o2]` to
`[o2, o1]` even though no reorder of that sub-sequence was requested. -/
theorem c8_counterexample :
    (handleMoveOption
      { id := "c", title := "C", description := none, createdAt := 0,
        modifiedAt := 0,
        items := [Item.option "o1" "t" 0, Item.option "o2" "u" 1] }
      "o2" "ROOT" 5).map (fun c => optionIds c.items) = some ["o2", "o1"] ∧
    optionIds [Item.option "o1" "t" 0, Item.option "o2" "u" 1] = ["o1", "o2"] ∧
    (some ["o2", "o1"] ≠ some ["o1", "o2"]) :=
  ⟨rfl, rfl, by decide⟩

/-- C8 (corrected).  With unique ids: reordering two root groups leaves the
root-option sub-sequence exactly unchanged and vice versa; an in-group drag
leaves both root id-projections unchanged; insertion only extends the two
id-projections (existing elements keep their relative order); deletion only
shrinks them; and a move of an option id keeps the group projection equal
and the option projection equal up to removing the moved id itself — but
moving a root option to the root sentinel reinserts it before the first
option, changing its own position (see the counterexample), so the claim's
blanket "moving does not reorder either sub-sequence" holds only for the
remaining elements. -/
theorem c8_section_order_preservation (cat : Category) (now : Nat) :
    (∀ (a b : String) (c' : Category),
      ((cat.items.filter Item.isGroup).any (fun g => g.id == a)) = true →
      ((cat.items.filter Item.isGroup).any (fun g => g.id == b)) = true →
      (cat.items.map Item.id).Nodup →
      handleDragEnd cat ItemSortField.manual a (some b) now = some c' →
      c'.items.filter Item.isOption = cat.items.filter Item.isOption) ∧
    (∀ (a b : String) (c' : Category),
      ((cat.items.filter Item.isOption).any (fun o => o.id == a)) = true →
      ((cat.items.filter Item.isOption).any (fun o => o.id == b)) = true →
      (cat.items.map Item.id).Nodup →
      handleDragEnd cat ItemSortField.manual a (some b) now = some c' →
      c'.items.filter Item.isGroup = cat.items.filter Item.isGroup) ∧
    (∀ (a b : String) (c' : Category),
      (cat.items.all (fun i => !(i.id == a))) = true →
      handleDragEnd cat ItemSortField.manual a (some b) now = some c' →
      optionIds c'.items = optionIds cat.items ∧
      groupIds c'.items = groupIds cat.items) ∧
    (∀ (mode : ModalMode) (tgid : Option String) (txt newId : String)
      (c' : Category),
      handleAddItem cat mode tgid txt newId now = some c' →
      List.Sublist (optionIds cat.items) (optionIds c'.items) ∧
      List.Sublist (groupIds cat.items) (groupIds c'.items)) ∧
    (∀ (itemId : String) (pgid : Option String) (c' : Category),
      handleDeleteItem cat itemId pgid now = Except.ok c' →
      List.Sublist (optionIds c'.items) (optionIds cat.items) ∧
      List.Sublist (groupIds c'.items) (groupIds cat.items)) ∧
    (∀ (oid dest : String) (c' : Category),
      groupsHoldOnlyOptions cat = true →
      (∀ i ∈ cat.items, i.id = oid → i.isOption = true) →
      (itemsIds cat.items).Nodup →
      handleMoveOption cat oid dest now = some c' →
      groupIds c'.items = groupIds cat.items ∧
      (optionIds c'.items).erase oid = (optionIds cat.items).erase oid) := by
  refine ⟨?_, ?_, ?_, ?_, ?_, ?_⟩
  · intro a b c' h1 h2 hnd h
    simp only [handleDragEnd] at h
    rw [show (!(ItemSortField.manual == ItemSortField.manual)) = false from rfl]
      at h
    simp only [Bool.false_eq_true, if_false] at h
    rcases hab : a == b with _ | _
    · rw [hab] at h
      simp only [Bool.false_eq_true, if_false] at h
      rw [h1, h2] at h
      simp only [Bool.and_self, if_true, Option.some.injEq] at h
      rw [← h]
      obtain ⟨g, hgf, hga⟩ := List.any_eq_true.mp h1
      have hgmem := List.mem_of_mem_filter hgf
      have hggrp := List.of_mem_filter hgf
      have hget := get_findIdx_by_id a cat.items g hgmem (eq_of_beq hga) hnd
      have hgo : g.isOption = false := by
        cases g <;> simp_all [Item.isGroup, Item.isOption]
      exact filter_arrayMove_of_neg _ _ _ _ g hget hgo
    · rw [hab] at h; simp at h
  · intro a b c' h1 h2 hnd h
    simp only [handleDragEnd] at h
    rw [show (!(ItemSortField.manual == ItemSortField.manual)) = false from rfl]
      at h
    simp only [Bool.false_eq_true, if_false] at h
    rcases hab : a == b with _ | _
    · rw [hab] at h
      simp only [Bool.false_eq_true, if_false] at h
      rw [group_any_id_false_of_option_any cat.items a h1 hnd] at h
      simp only [Bool.false_and, Bool.false_eq_true, if_false] at h
      rw [h1, h2] at h
      simp only [Bool.and_self, if_true, Option.some.injEq] at h
      rw [← h]
      obtain ⟨o, hof, hoa⟩ := List.any_eq_true.mp h1
      have homem := List.mem_of_mem_filter hof
      have hoopt := List.of_mem_filter hof
      have hget := get_findIdx_by_id a cat.items o homem (eq_of_beq hoa) hnd
      have hog : o.isGroup = false := by
        cases o <;> simp_all [Item.isGroup, Item.isOption]
      exact filter_arrayMove_of_neg _ _ _ _ o hget hog
    · rw [hab] at h; simp at h
  · intro a b c' hna h
    simp only [handleDragEnd] at h
    rw [show (!(ItemSortField.manual == ItemSortField.manual)) = false from rfl]
      at h
    simp only [Bool.false_eq_true, if_false] at h
    rcases hab : a == b with _ | _
    · rw [hab] at h
      simp only [Bool.false_eq_true, if_false] at h
      rw [filter_any_id_false cat.items Item.isGroup a hna,
        filter_any_id_false cat.items Item.isOption a hna] at h
      simp only [Bool.false_and, Bool.false_eq_true, if_false] at h
      rcases hfi : cat.items.findIdx? (fun i =>
          i.isGroup && i.subItems.any (fun o => o.id == a)) with _ | pgi
      · rw [hfi] at h; simp at h
      · rw [hfi] at h
        dsimp only at h
        rcases hget : cat.items.get? pgi with _ | g
        · rw [hget] at h; simp at h
        · rw [hget] at h
          dsimp only at h
          rcases hsub : g.subItems.any (fun o => o.id == b) with _ | _
          · rw [hsub] at h; simp at h
          · rw [hsub] at h
            simp only [if_true, Option.some.injEq] at h
            rw [← h]
            exact projections_set_same_shape cat.items pgi g _ hget
              (by simp) (by simp) (by simp)
    · rw [hab] at h; simp at h
  · intro mode tgid txt newId c' h
    simp only [handleAddItem] at h
    rcases ht : jsTrim txt == "" with _ | _
    · rw [ht] at h
      simp only [Bool.false_eq_true, if_false, Option.some.injEq] at h
      rw [← h]
      split
      · constructor
        · rw [(prependIntoGroupById_projections _ _ cat.items).1]
        · rw [(prependIntoGroupById_projections _ _ cat.items).2]
      · split
        · constructor
          · show List.Sublist (optionIds cat.items) (optionIds (_ :: cat.items))
            unfold optionIds
            exact ((List.sublist_cons_of_sublist _
              (List.Sublist.refl cat.items)).filter Item.isOption).map Item.id
          · show List.Sublist (groupIds cat.items) (groupIds (_ :: cat.items))
            unfold groupIds
            exact ((List.sublist_cons_of_sublist _
              (List.Sublist.refl cat.items)).filter Item.isGroup).map Item.id
        · constructor
          · unfold optionIds
            exact (((sublist_insertBeforeFirstOption _ cat.items)).filter
              Item.isOption).map Item.id
          · unfold groupIds
            exact (((sublist_insertBeforeFirstOption _ cat.items)).filter
              Item.isGroup).map Item.id
    · rw [ht] at h; simp at h
  · intro itemId pgid c' h
    simp only [handleDeleteItem] at h
    rcases hp : pgid.getD "" == "" with _ | _
    · rw [hp] at h
      simp only [Bool.not_false, if_true] at h
      rcases hd : deleteFromNamedGroup cat.items (pgid.getD "") itemId with _ | l'
      · rw [hd] at h; simp at h
      · rw [hd] at h
        simp only [Except.ok.injEq] at h
        rw [← h]
        obtain ⟨ho, hg⟩ := deleteFromNamedGroup_projections _ _ cat.items l' hd
        exact ⟨by rw [ho], by rw [hg]⟩
    · rw [hp] at h
      simp only [Bool.not_true, Bool.false_eq_true, if_false, Except.ok.injEq]
        at h
      rw [← h]
      constructor
      · unfold optionIds
        exact ((List.filter_sublist cat.items).filter Item.isOption).map Item.id
      · unfold groupIds
        exact ((List.filter_sublist cat.items).filter Item.isGroup).map Item.id
  · intro oid dest c' hWF hall hnd h
    unfold groupsHoldOnlyOptions at hWF
    simp only [handleMoveOption] at h
    rcases ho : oid == "" with _ | _
    · rw [ho] at h
      simp only [Bool.false_eq_true, if_false] at h
      rcases hrem : removeFirstById cat.items oid with _ | ⟨x, items'⟩
      · rw [hrem] at h
        rcases hrg : removeFromGroups cat.items oid with _ | ⟨x, items'⟩
        · rw [hrg] at h; simp at h
        · rw [hrg] at h
          simp only [Option.some.injEq] at h
          rw [← h]
          obtain ⟨pre, gi, gt, gc, s1, s2, post, h1, h2, h3⟩ :=
            removeFromGroups_spec oid cat.items x items' hrg
          have hx : x.isOption = true := by
            have hgmem : Item.group gi gt gc (s1 ++ x :: s2) ∈ cat.items := by
              rw [h1]; simp
            have hgWF := List.all_eq_true.mp hWF _ hgmem
            simp only [Item.isWellFormed] at hgWF
            exact List.all_eq_true.mp hgWF x (by simp)
          have hxg : x.isGroup = false := by
            cases x <;> simp_all [Item.isOption, Item.isGroup]
          have hOeq : optionIds items' = optionIds cat.items := by
            rw [h1, h2]
            unfold optionIds
            simp [List.filter_append, List.filter_cons, Item.isOption]
          have hGeq : groupIds items' = groupIds cat.items := by
            rw [h1, h2]
            unfold groupIds
            simp [List.filter_append, List.filter_cons, Item.isGroup, Item.id]
          have hnotmem : oid ∉ optionIds cat.items := by
            intro hmem
            have hnd' := hnd
            rw [h1, itemsIds_append] at hnd'
            have hdecomp : itemsIds (Item.group gi gt gc (s1 ++ x :: s2) :: post)
                = gi :: ((s1 ++ x :: s2).map Item.id ++ itemsIds post) := by
              simp [itemsIds, Item.subItems, Item.id]
            rw [hdecomp] at hnd'
            rw [List.nodup_append] at hnd'
            have hsubmem : oid ∈ (s1 ++ x :: s2).map Item.id := by
              rw [← h3]
              exact List.mem_map_of_mem Item.id (by simp)
            have hOd : optionIds cat.items =
                optionIds pre ++ optionIds post := by
              rw [h1]
              unfold optionIds
              simp [List.filter_append, List.filter_cons, Item.isOption]
            rw [hOd] at hmem
            rcases List.mem_append.mp hmem with hm | hm
            · have : oid ∈ itemsIds pre := by
                refine mem_itemsIds_of_mem_map_id oid pre ?_
                unfold optionIds at hm
                obtain ⟨y, hy, hys⟩ := List.mem_map.mp hm
                exact hys ▸ List.mem_map_of_mem Item.id (List.mem_of_mem_filter hy)
              exact hnd'.2.2 this
                (List.mem_cons_of_mem _ (List.mem_append_left _ hsubmem))
            · have hpost : oid ∈ itemsIds post := by
                refine mem_itemsIds_of_mem_map_id oid post ?_
                unfold optionIds at hm
                obtain ⟨y, hy, hys⟩ := List.mem_map.mp hm
                exact hys ▸ List.mem_map_of_mem Item.id (List.mem_of_mem_filter hy)
              have htail := hnd'.2.1
              rw [List.nodup_cons, List.nodup_append] at htail
              exact htail.2.2.2 hsubmem hpost
          split
          · constructor
            · rw [groupIds_insertBeforeFirstOption x hx items']
              exact hGeq
            · rw [optionIds_insertBeforeFirstOption x hx items', h3,
                List.erase_cons_head, List.erase_of_not_mem hnotmem]
              exact hOeq
          · obtain ⟨hoA, hgA⟩ := appendToGroupById_projections dest x items'
            constructor
            · rw [hgA]; exact hGeq
            · rw [hoA, hOeq]
      · rw [hrem] at h
        simp only [Option.some.injEq] at h
        rw [← h]
        obtain ⟨pre, post, h1, h2, h3, hpre⟩ :=
          removeFirstById_spec oid cat.items x items' hrem
        have hx : x.isOption = true := hall x (by rw [h1]; simp) h3
        have hxg : x.isGroup = false := by
          cases x <;> simp_all [Item.isOption, Item.isGroup]
        have hOdec : optionIds cat.items =
            optionIds pre ++ x.id :: optionIds post := by
          rw [h1]
          unfold optionIds
          simp [List.filter_append, List.filter_cons, hx]
        have hOdec' : optionIds items' = optionIds pre ++ optionIds post := by
          rw [h2]
          unfold optionIds
          simp [List.filter_append]
        have hGeq : groupIds items' = groupIds cat.items := by
          rw [h1, h2]
          unfold groupIds
          simp [List.filter_append, List.filter_cons, hxg]
        have hpreO : ∀ s ∈ optionIds pre, (s == oid) = false := by
          intro s hs
          unfold optionIds at hs
          obtain ⟨y, hy, hys⟩ := List.mem_map.mp hs
          have := hpre y (List.mem_of_mem_filter hy)
          rw [← hys]
          exact this
        have hpostO : oid ∉ optionIds post := by
          intro hmem
          have hndroot := nodup_map_id_of_nodup_itemsIds cat.items hnd
          rw [h1] at hndroot
          simp only [List.map_append, List.map_cons, List.nodup_append,
            List.nodup_cons] at hndroot
          refine hndroot.2.1.1 ?_
          rw [h3]
          unfold optionIds at hmem
          obtain ⟨y, hy, hys⟩ := List.mem_map.mp hmem
          exact hys ▸ List.mem_map_of_mem Item.id (List.mem_of_mem_filter hy)
        have hOdec2 : optionIds cat.items =
            optionIds pre ++ oid :: optionIds post := by
          rw [hOdec, h3]
        split
        · constructor
          · rw [groupIds_insertBeforeFirstOption x hx items']
            exact hGeq
          · rw [optionIds_insertBeforeFirstOption x hx items', h3,
              List.erase_cons_head, hOdec', hOdec2,
              erase_append_cons_self oid _ _ hpreO]
        · obtain ⟨hoA, hgA⟩ := appendToGroupById_projections dest x items'
          constructor
          · rw [hgA]; exact hGeq
          · rw [hoA, hOdec', hOdec2, erase_append_cons_self oid _ _ hpreO]
            rw [List.erase_of_not_mem]
            intro hmem
            rcases List.mem_append.mp hmem with hm | hm
            · have := hpreO oid hm
              simp at this
            · exact hpostO hm
    · rw [ho] at h; simp at h

/-- Witness for C8's amended statement: dragging group `"g2"` onto group
`"g1"` reorders the group block while the option sub-sequence stays
`[o1]`. -/
theorem c8_section_order_preservation_witness :
    List.filter Item.isOption
      [Item.group "g2" "H" 1 [], Item.group "g1" "G" 0 [],
        Item.option "o1" "t" 2] =
    List.filter Item.isOption
      [Item.group "g1" "G" 0 [], Item.group "g2" "H" 1 [],
        Item.option "o1" "t" 2] := by
  have h := (c8_section_order_preservation
    { id := "c", title := "C", description := none, createdAt := 0,
      modifiedAt := 0,
      items := [Item.group "g1" "G" 0 [], Item.group "g2" "H" 1 [],
        Item.option "o1" "t" 2] } 5).1 "g2" "g1" _
    (by decide) (by decide) (by decide) rfl
  simpa using h

/-! ## Claim C5: the title-based merge only grows the document

The merge's effect is captured by a growth preorder: an item grows by
appending to a group's items; an item list grows pointwise with new items
appended at the end; a category grows by growing its items (its identity
fields are untouched); a document grows pointwise with new categories
appended at the end. -/

/-- One item grows: unchanged, or a group gaining appended items. -/
def ItemGrow (a b : Item) : Prop :=
  a = b ∨ ∃ gi gt gc subs ext,
    a = Item.group gi gt gc subs ∧ b = Item.group gi gt gc (subs ++ ext)

/-- Pointwise growth of an item list, allowing extra items at the end. -/
def ItemsGrow : List Item → List Item → Prop
  | [], _ => True
  | _ :: _, [] => False
  | a :: as, b :: bs => ItemGrow a b ∧ ItemsGrow as bs

/-- A category grows: same identity fields, grown items. -/
def CatGrow (c c' : Category) : Prop :=
  c.id = c'.id ∧ c.title = c'.title ∧ c.description = c'.description ∧
    c.createdAt = c'.createdAt ∧ ItemsGrow c.items c'.items

/-- Pointwise growth of the document, new categories appended. -/
def DocGrow : List Category → List Category → Prop
  | [], _ => True
  | _ :: _, [] => False
  | c :: cs, d :: ds => CatGrow c d ∧ DocGrow cs ds

theorem itemGrow_refl (a : Item) : ItemGrow a a := Or.inl rfl

theorem itemGrow_trans {a b c : Item} (h1 : ItemGrow a b) (h2 : ItemGrow b c) :
    ItemGrow a c := by
  rcases h1 with rfl | ⟨gi, gt, gc, subs, ext, rfl, rfl⟩
  · exact h2
  · rcases h2 with rfl | ⟨gi', gt', gc', subs', ext', heq, rfl⟩
    · exact Or.inr ⟨gi, gt, gc, subs, ext, rfl, rfl⟩
    · injection heq with e1 e2 e3 e4
      subst e1; subst e2; subst e3
      refine Or.inr ⟨gi, gt, gc, subs, ext ++ ext', rfl, ?_⟩
      rw [← e4]
      simp [List.append_assoc]

theorem itemsGrow_refl : ∀ l : List Item, ItemsGrow l l := by
  intro l
  induction l with
  | nil => trivial
  | cons a as ih => exact ⟨itemGrow_refl a, ih⟩

theorem itemsGrow_trans : ∀ {l1 l2 l3 : List Item},
    ItemsGrow l1 l2 → ItemsGrow l2 l3 → ItemsGrow l1 l3 := by
  intro l1
  induction l1 with
  | nil => intro l2 l3 _ _; trivial
  | cons a as ih =>
    intro l2 l3 h1 h2
    cases l2 with
    | nil => exact absurd h1 (by simp [ItemsGrow])
    | cons b bs =>
      cases l3 with
      | nil => exact absurd h2 (by simp [ItemsGrow])
      | cons c cs =>
        exact ⟨itemGrow_trans h1.1 h2.1, ih h1.2 h2.2⟩

theorem itemsGrow_extend : ∀ (l e : List Item), ItemsGrow l (l ++ e) := by
  intro l e
  induction l with
  | nil => trivial
  | cons a as ih => exact ⟨itemGrow_refl a, ih⟩

theorem catGrow_refl (c : Category) : CatGrow c c :=
  ⟨rfl, rfl, rfl, rfl, itemsGrow_refl c.items⟩

theorem catGrow_trans {a b c : Category} (h1 : CatGrow a b) (h2 : CatGrow b c) :
    CatGrow a c :=
  ⟨h1.1.trans h2.1, h1.2.1.trans h2.2.1, h1.2.2.1.trans h2.2.2.1,
    h1.2.2.2.1.trans h2.2.2.2.1, itemsGrow_trans h1.2.2.2.2 h2.2.2.2.2⟩

theorem docGrow_refl : ∀ d : List Category, DocGrow d d := by
  intro d
  induction d with
  | nil => trivial
  | cons c cs ih => exact ⟨catGrow_refl c, ih⟩

theorem docGrow_trans : ∀ {d1 d2 d3 : List Category},
    DocGrow d1 d2 → DocGrow d2 d3 → DocGrow d1 d3 := by
  intro d1
  induction d1 with
  | nil => intro d2 d3 _ _; trivial
  | cons c cs ih =>
    intro d2 d3 h1 h2
    cases d2 with
    | nil => exact absurd h1 (by simp [DocGrow])
    | cons e es =>
      cases d3 with
      | nil => exact absurd h2 (by simp [DocGrow])
      | cons f fs =>
        exact ⟨catGrow_trans h1.1 h2.1, ih h1.2 h2.2⟩

theorem mergeSubAux_eq_append (subTitles : List String) :
    ∀ (imps acc : List Item) (ctr : Nat),
      ∃ ext, (mergeSubAux subTitles acc imps ctr).1 = acc ++ ext := by
  intro imps
  induction imps with
  | nil => intro acc ctr; exact ⟨[], by simp [mergeSubAux]⟩
  | cons imp rest ih =>
    intro acc ctr
    simp only [mergeSubAux]
    rcases hc : subTitles.contains imp.title with _ | _
    · simp only [Bool.false_eq_true, if_false]
      obtain ⟨ext, hext⟩ := ih (acc ++ [imp.setId ("new-" ++ toString ctr)])
        (ctr + 1)
      exact ⟨imp.setId ("new-" ++ toString ctr) :: ext, by
        rw [show freshId ctr = ("new-" ++ toString ctr, ctr + 1) from rfl]
        simp only
        rw [hext]
        simp⟩
    · simp only [if_true]
      exact ih acc ctr

theorem mergeGroupStep_grows :
    ∀ (l : List Item) (imp : Item) (ctr : Nat),
      ItemsGrow l (mergeGroupStep l imp ctr).1 := by
  intro l
  induction l with
  | nil => intro imp ctr; trivial
  | cons i rest ih =>
    intro imp ctr
    simp only [mergeGroupStep]
    rcases hm : i.isGroup && (i.title == imp.title) with _ | _
    · simp only [Bool.false_eq_true, if_false]
      exact ⟨itemGrow_refl i, ih imp ctr⟩
    · simp only [if_true]
      cases i with
      | option a b c => exact ⟨itemGrow_refl _, itemsGrow_refl rest⟩
      | group gi gt gc subs =>
        obtain ⟨ext, hext⟩ := mergeSubAux_eq_append (subs.map Item.title)
          imp.subItems subs ctr
        refine ⟨Or.inr ⟨gi, gt, gc, subs, ext, rfl, ?_⟩, itemsGrow_refl rest⟩
        show Item.group gi gt gc (mergeSubOptions subs imp.subItems ctr).1 = _
        rw [mergeSubOptions, hext]

theorem mergeOptionStep_grows (l : List Item) (imp : Item) (ctr : Nat) :
    ItemsGrow l (mergeOptionStep l imp ctr).1 := by
  simp only [mergeOptionStep]
  rcases h : l.any (fun i => i.isOption && i.title == imp.title) with _ | _
  · simp only [Bool.false_eq_true, if_false]
    exact itemsGrow_extend l _
  · simp only [if_true]
    exact itemsGrow_refl l

theorem mergeCatItems_grows :
    ∀ (impItems l : List Item) (ctr : Nat),
      ItemsGrow l (mergeCatItems l impItems ctr).1 := by
  intro impItems
  induction impItems with
  | nil => intro l ctr; exact itemsGrow_refl l
  | cons imp rest ih =>
    intro l ctr
    simp only [mergeCatItems]
    rcases hg : imp.isGroup with _ | _
    · simp only [Bool.false_eq_true, if_false]
      exact itemsGrow_trans (mergeOptionStep_grows l imp ctr) (ih _ _)
    · simp only [if_true]
      exact itemsGrow_trans (mergeGroupStep_grows l imp ctr) (ih _ _)

theorem mergeDocStep_grows :
    ∀ (cats : List Category) (impCat : Category) (now ctr : Nat),
      DocGrow cats (mergeDocStep cats impCat now ctr).1 := by
  intro cats
  induction cats with
  | nil => intro impCat now ctr; trivial
  | cons c rest ih =>
    intro impCat now ctr
    simp only [mergeDocStep]
    rcases ht : c.title == impCat.title with _ | _
    · simp only [Bool.false_eq_true, if_false]
      exact ⟨catGrow_refl c, ih impCat now ctr⟩
    · simp only [if_true]
      exact ⟨⟨rfl, rfl, rfl, rfl, mergeCatItems_grows impCat.items c.items ctr⟩,
        docGrow_refl rest⟩

theorem importCategories_grows :
    ∀ (imported prev : List Category) (now ctr : Nat),
      DocGrow prev (importCategories prev imported now ctr).1 := by
  intro imported
  induction imported with
  | nil => intro prev now ctr; exact docGrow_refl prev
  | cons c rest ih =>
    intro prev now ctr
    simp only [importCategories]
    exact docGrow_trans (mergeDocStep_grows prev c now ctr) (ih _ _ _)

theorem itemsGrow_mem : ∀ {l l' : List Item}, ItemsGrow l l' →
    ∀ a ∈ l, ∃ b ∈ l', ItemGrow a b := by
  intro l
  induction l with
  | nil => intro l' _ a ha; simp at ha
  | cons x xs ih =>
    intro l' h a ha
    cases l' with
    | nil => exact absurd h (by simp [ItemsGrow])
    | cons y ys =>
      rcases List.mem_cons.mp ha with hax | har
      · exact ⟨y, List.mem_cons_self _ _, hax ▸ h.1⟩
      · obtain ⟨b, hb, hgrow⟩ := ih h.2 a har
        exact ⟨b, List.mem_cons_of_mem _ hb, hgrow⟩

theorem docGrow_mem : ∀ {d d' : List Category}, DocGrow d d' →
    ∀ c ∈ d, ∃ c' ∈ d', CatGrow c c' := by
  intro d
  induction d with
  | nil => intro d' _ c hc; simp at hc
  | cons x xs ih =>
    intro d' h c hc
    cases d' with
    | nil => exact absurd h (by simp [DocGrow])
    | cons y ys =>
      rcases List.mem_cons.mp hc with hcx | hcr
      · exact ⟨y, List.mem_cons_self _ _, hcx ▸ h.1⟩
      · obtain ⟨c', hc', hgrow⟩ := ih h.2 c hcr
        exact ⟨c', List.mem_cons_of_mem _ hc', hgrow⟩

theorem ItemGrow.title {a b : Item} (h : ItemGrow a b) : a.title = b.title := by
  rcases h with rfl | ⟨gi, gt, gc, subs, ext, rfl, rfl⟩ <;> rfl

theorem ItemGrow.isGroup_eq {a b : Item} (h : ItemGrow a b) :
    a.isGroup = b.isGroup := by
  rcases h with rfl | ⟨gi, gt, gc, subs, ext, rfl, rfl⟩ <;> rfl

theorem ItemGrow.isOption_eq {a b : Item} (h : ItemGrow a b) :
    a.isOption = b.isOption := by
  rcases h with rfl | ⟨gi, gt, gc, subs, ext, rfl, rfl⟩ <;> rfl

theorem ItemGrow.sub_mem {a b : Item} (h : ItemGrow a b) :
    ∀ o ∈ a.subItems, o ∈ b.subItems := by
  rcases h with rfl | ⟨gi, gt, gc, subs, ext, rfl, rfl⟩
  · intro o ho; exact ho
  · intro o ho
    simp only [Item.subItems] at ho ⊢
    exact List.mem_append_left _ ho

/-- C5 (confirmed).  The title-based merge never deletes or overwrites: every
category present before the merge is still present with its title, and inside
it every group is present by title with all of its options present by title,
and every root option is present by title. -/
theorem c5_merge_never_deletes (prev imported : List Category)
    (now ctr : Nat) :
    ∀ c ∈ prev, ∃ c' ∈ (importCategories prev imported now ctr).1,
      c'.title = c.title ∧
      (∀ g ∈ c.items, g.isGroup = true → ∃ g' ∈ c'.items,
        g'.isGroup = true ∧ g'.title = g.title ∧
        ∀ o ∈ g.subItems, ∃ o' ∈ g'.subItems, o'.title = o.title) ∧
      (∀ o ∈ c.items, o.isOption = true → ∃ o' ∈ c'.items,
        o'.isOption = true ∧ o'.title = o.title) := by
  intro c hc
  obtain ⟨c', hc', hgrow⟩ :=
    docGrow_mem (importCategories_grows imported prev now ctr) c hc
  refine ⟨c', hc', hgrow.2.1.symm, ?_, ?_⟩
  · intro g hg hgg
    obtain ⟨g', hg', hgrow'⟩ := itemsGrow_mem hgrow.2.2.2.2 g hg
    refine ⟨g', hg', hgrow'.isGroup_eq ▸ hgg, hgrow'.title.symm, ?_⟩
    intro o ho
    exact ⟨o, hgrow'.sub_mem o ho, rfl⟩
  · intro o ho hoo
    obtain ⟨o', ho', hgrow'⟩ := itemsGrow_mem hgrow.2.2.2.2 o ho
    exact ⟨o', ho', hgrow'.isOption_eq ▸ hoo, hgrow'.title.symm⟩

/-- Witness for C5: the category `"P"` with one group and one root option is
still present, with its contents, after importing a category list that
merges into it. -/
theorem c5_merge_never_deletes_witness :
    ∃ c' ∈ (importCategories
      [{ id := "p"
         title := "P"
         description := none
         createdAt := 0
         modifiedAt := 0
         items := [Item.group "g" "G" 0 [Item.option "o" "t" 0],
           Item.option "r" "u" 0] }]
      [{ id := "i"
         title := "P"
         description := none
         createdAt := 0
         modifiedAt := 0
         items := [Item.group "gi" "G" 0 [Item.option "oi" "v" 0]] }]
      9 0).1,
      c'.title = Category.title { id := "p"
                                  title := "P"
                                  description := none
                                  createdAt := 0
                                  modifiedAt := 0
                                  items := [Item.group "g" "G" 0
                                    [Item.option "o" "t" 0],
                                    Item.option "r" "u" 0] } ∧
      (∀ g ∈ Category.items { id := "p"
                              title := "P"
                              description := none
                              createdAt := 0
                              modifiedAt := 0
                              items := [Item.group "g" "G" 0
                                [Item.option "o" "t" 0],
                                Item.option "r" "u" 0] }, g.isGroup = true →
        ∃ g' ∈ c'.items, g'.isGroup = true ∧ g'.title = g.title ∧
          ∀ o ∈ g.subItems, ∃ o' ∈ g'.subItems, o'.title = o.title) ∧
      (∀ o ∈ Category.items { id := "p"
                              title := "P"
                              description := none
                              createdAt := 0
                              modifiedAt := 0
                              items := [Item.group "g" "G" 0
                                [Item.option "o" "t" 0],
                                Item.option "r" "u" 0] }, o.isOption = true →
        ∃ o' ∈ c'.items, o'.isOption = true ∧ o'.title = o.title) :=
  c5_merge_never_deletes _ _ 9 0 _ (List.mem_cons_self _ _)

/-! ## Claim C4: idempotence of the title-based merge

A document `covers` an imported category when the first existing category
with its title already contains, for each imported group, a first
same-titled group holding all of its option titles, and each imported root
option's title.  A covered import step only refreshes `modifiedAt`. -/

/-- The group lookup of the merge: first item that is a group with the given
title (`findIndex(i => i.type === 'GROUP' && i.title === t)`). -/
def findFirstGroupByTitle : List Item → String → Option Item
  | [], _ => none
  | i :: rest, t =>
    if i.isGroup && i.title == t then some i
    else findFirstGroupByTitle rest t

/-- The existing items already absorb one imported item. -/
def coversItem (eItems : List Item) (imp : Item) : Bool :=
  if imp.isGroup then
    match findFirstGroupByTitle eItems imp.title with
    | some g => imp.subItems.all
        (fun s => (g.subItems.map Item.title).contains s.title)
    | none => false
  else eItems.any (fun i => i.isOption && i.title == imp.title)

/-- The existing items absorb every imported item. -/
def coversItems (eItems impItems : List Item) : Bool :=
  impItems.all (coversItem eItems)

/-- The document absorbs an imported category: its first title match exists
and absorbs all the imported items. -/
def coversDoc (cats : List Category) (c : Category) : Bool :=
  match cats.find? (fun e => e.title == c.title) with
  | some e => coversItems e.items c.items
  | none => false

/-- Refresh `modifiedAt` of the first category with the given title. -/
def touchFirstByTitle : List Category → String → Nat → List Category
  | [], _, _ => []
  | c :: rest, t, now =>
    if c.title == t then { c with modifiedAt := now } :: rest
    else c :: touchFirstByTitle rest t now

/-- A category up to its `modifiedAt` timestamp. -/
def Category.stripMod (c : Category) : Category := { c with modifiedAt := 0 }

/-- No two groups of the category share a title. -/
def nodupGroupTitles (c : Category) : Prop :=
  ((c.items.filter Item.isGroup).map Item.title).Nodup

theorem mergeSubAux_covered (subTitles : List String) :
    ∀ (imps acc : List Item) (ctr : Nat),
      (∀ s ∈ imps, subTitles.contains s.title = true) →
      mergeSubAux subTitles acc imps ctr = (acc, ctr) := by
  intro imps
  induction imps with
  | nil => intro acc ctr _; rfl
  | cons imp rest ih =>
    intro acc ctr h
    simp only [mergeSubAux, h imp (List.mem_cons_self _ _), if_true]
    exact ih acc ctr (fun s hs => h s (List.mem_cons_of_mem _ hs))

theorem mergeGroupStep_covered :
    ∀ (l : List Item) (imp : Item) (ctr : Nat), imp.isGroup = true →
      coversItem l imp = true → mergeGroupStep l imp ctr = (l, ctr) := by
  intro l
  induction l with
  | nil =>
    intro imp ctr himp h
    simp [coversItem, himp, findFirstGroupByTitle] at h
  | cons i rest ih =>
    intro imp ctr himp h
    simp only [coversItem, himp, if_true, findFirstGroupByTitle] at h
    simp only [mergeGroupStep]
    rcases hm : i.isGroup && (i.title == imp.title) with _ | _
    · rw [hm] at h
      simp only [Bool.false_eq_true, if_false] at h ⊢
      have h' : coversItem rest imp = true := by
        simp only [coversItem, himp, if_true]
        exact h
      rw [ih imp ctr himp h']
    · rw [hm] at h
      simp only [if_true] at h
      cases i with
      | option a b c => simp [Item.isGroup] at hm
      | group gi gt gc subs =>
        simp only [Item.subItems] at h
        have hcov : ∀ s ∈ imp.subItems,
            (subs.map Item.title).contains s.title = true :=
          List.all_eq_true.mp h
        show (Item.group gi gt gc
          (mergeSubOptions subs imp.subItems ctr).1 :: rest,
          (mergeSubOptions subs imp.subItems ctr).2) = _
        rw [mergeSubOptions, mergeSubAux_covered _ _ _ _ hcov]

theorem mergeOptionStep_covered (l : List Item) (imp : Item) (ctr : Nat)
    (himp : imp.isGroup = false) (h : coversItem l imp = true) :
    mergeOptionStep l imp ctr = (l, ctr) := by
  simp only [coversItem, himp, Bool.false_eq_true, if_false] at h
  simp only [mergeOptionStep, h, if_true]

theorem mergeCatItems_covered :
    ∀ (impItems l : List Item) (ctr : Nat),
      coversItems l impItems = true → mergeCatItems l impItems ctr = (l, ctr) := by
  intro impItems
  induction impItems with
  | nil => intro l ctr _; rfl
  | cons imp rest ih =>
    intro l ctr h
    simp only [coversItems, List.all_cons, Bool.and_eq_true] at h
    simp only [mergeCatItems]
    rcases hg : imp.isGroup with _ | _
    · simp only [Bool.false_eq_true, if_false]
      rw [mergeOptionStep_covered l imp ctr hg h.1]
      exact ih l ctr h.2
    · simp only [if_true]
      rw [mergeGroupStep_covered l imp ctr hg h.1]
      exact ih l ctr h.2

theorem mergeDocStep_covered :
    ∀ (cats : List Category) (c : Category) (now ctr : Nat),
      coversDoc cats c = true →
      mergeDocStep cats c now ctr = (touchFirstByTitle cats c.title now, ctr) := by
  intro cats
  induction cats with
  | nil => intro c now ctr h; simp [coversDoc, List.find?] at h
  | cons e rest ih =>
    intro c now ctr h
    simp only [coversDoc] at h
    rcases het : e.title == c.title with _ | _
    · rw [List.find?_cons_of_neg _ (by simp [het])] at h
      simp only [mergeDocStep, het, Bool.false_eq_true, if_false,
        touchFirstByTitle]
      rw [ih c now ctr (by simpa [coversDoc] using h)]
    · rw [List.find?_cons_of_pos _ (by simp [het])] at h
      simp only [mergeDocStep, het, if_true, touchFirstByTitle]
      rw [mergeCatItems_covered c.items e.items ctr h]

theorem coversDoc_touchFirst (t : String) (now : Nat) :
    ∀ (cats : List Category) (c : Category),
      coversDoc (touchFirstByTitle cats t now) c = coversDoc cats c := by
  intro cats
  induction cats with
  | nil => intro c; rfl
  | cons e rest ih =>
    intro c
    simp only [touchFirstByTitle]
    rcases het : e.title == t with _ | _
    · simp only [Bool.false_eq_true, if_false, coversDoc]
      rcases hec : e.title == c.title with _ | _
      · rw [List.find?_cons_of_neg _ (by simp [hec]),
          List.find?_cons_of_neg _ (by simp [hec])]
        have := ih c
        simpa [coversDoc] using this
      · rw [List.find?_cons_of_pos _ (by simp [hec]),
          List.find?_cons_of_pos _ (by simp [hec])]
    · simp only [if_true, coversDoc]
      rcases hec : e.title == c.title with _ | _
      · rw [List.find?_cons_of_neg _ (by simp [hec]),
          List.find?_cons_of_neg _ (by simp [hec])]
      · rw [List.find?_cons_of_pos _ (by simp [hec]),
          List.find?_cons_of_pos _ (by simp [hec])]

theorem map_stripMod_touchFirst (t : String) (now : Nat) :
    ∀ cats : List Category,
      (touchFirstByTitle cats t now).map Category.stripMod =
        cats.map Category.stripMod := by
  intro cats
  induction cats with
  | nil => rfl
  | cons e rest ih =>
    simp only [touchFirstByTitle]
    rcases het : e.title == t with _ | _
    · simp only [Bool.false_eq_true, if_false, List.map_cons, ih]
    · simp only [if_true, List.map_cons]
      rfl

theorem contains_iff_mem_str (l : List String) (s : String) :
    l.contains s = true ↔ s ∈ l := by simp

theorem findFirstGroupByTitle_grow (t : String) :
    ∀ {l l' : List Item}, ItemsGrow l l' →
      ∀ {g : Item}, findFirstGroupByTitle l t = some g →
      ∃ g', findFirstGroupByTitle l' t = some g' ∧ ItemGrow g g' := by
  intro l
  induction l with
  | nil => intro l' _ g hg; simp [findFirstGroupByTitle] at hg
  | cons a as ih =>
    intro l' hgrow g hg
    cases l' with
    | nil => exact absurd hgrow (by simp [ItemsGrow])
    | cons b bs =>
      simp only [findFirstGroupByTitle] at hg ⊢
      have hguard : (b.isGroup && (b.title == t)) = (a.isGroup && (a.title == t)) := by
        rw [hgrow.1.isGroup_eq, hgrow.1.title]
      rw [hguard]
      rcases hm : a.isGroup && (a.title == t) with _ | _
      · rw [hm] at hg
        simp only [Bool.false_eq_true, if_false] at hg ⊢
        exact ih hgrow.2 hg
      · rw [hm] at hg
        simp only [if_true, Option.some.injEq] at hg ⊢
        exact ⟨b, rfl, hg ▸ hgrow.1⟩

theorem ItemGrow.contains_title {g g' : Item} (h : ItemGrow g g') (s : String)
    (hc : (g.subItems.map Item.title).contains s = true) :
    (g'.subItems.map Item.title).contains s = true := by
  rcases h with rfl | ⟨gi, gt, gc, subs, ext, rfl, rfl⟩
  · exact hc
  · rw [contains_iff_mem_str] at hc ⊢
    simp only [Item.subItems] at hc ⊢
    rw [List.map_append]
    exact List.mem_append_left _ hc

theorem coversItem_grow {l l' : List Item} (hgrow : ItemsGrow l l')
    (imp : Item) (h : coversItem l imp = true) : coversItem l' imp = true := by
  simp only [coversItem] at h ⊢
  rcases hig : imp.isGroup with _ | _
  · rw [hig] at h
    simp only [Bool.false_eq_true, if_false] at h ⊢
    obtain ⟨i, hi, hp⟩ := List.any_eq_true.mp h
    obtain ⟨b, hb, hgb⟩ := itemsGrow_mem hgrow i hi
    refine List.any_eq_true.mpr ⟨b, hb, ?_⟩
    rw [← hgb.isOption_eq, ← hgb.title]
    exact hp
  · rw [hig] at h
    simp only [if_true] at h ⊢
    rcases hf : findFirstGroupByTitle l imp.title with _ | g
    · rw [hf] at h; simp at h
    · rw [hf] at h
      obtain ⟨g', hg', hgg⟩ := findFirstGroupByTitle_grow imp.title hgrow hf
      rw [hg']
      rw [List.all_eq_true] at h ⊢
      intro s hs
      exact hgg.contains_title s.title (h s hs)

theorem coversItems_grow {l l' : List Item} (hgrow : ItemsGrow l l')
    (impItems : List Item) (h : coversItems l impItems = true) :
    coversItems l' impItems = true := by
  simp only [coversItems, List.all_eq_true] at h ⊢
  intro imp himp
  exact coversItem_grow hgrow imp (h imp himp)

theorem find?_title_grow (t : String) :
    ∀ {d d' : List Category}, DocGrow d d' →
      ∀ {e : Category}, d.find? (fun x => x.title == t) = some e →
      ∃ e', d'.find? (fun x => x.title == t) = some e' ∧ CatGrow e e' := by
  intro d
  induction d with
  | nil => intro d' _ e he; simp [List.find?] at he
  | cons a as ih =>
    intro d' hgrow e he
    cases d' with
    | nil => exact absurd hgrow (by simp [DocGrow])
    | cons b bs =>
      rcases hm : a.title == t with _ | _
      · rw [List.find?_cons_of_neg _ (by simp [hm])] at he
        rw [List.find?_cons_of_neg _ (by
          simp only [← hgrow.1.2.1]
          simp [hm])]
        exact ih hgrow.2 he
      · rw [List.find?_cons_of_pos _ (by simp [hm])] at he
        rw [List.find?_cons_of_pos _ (by
          simp only [← hgrow.1.2.1]
          simp [hm])]
        injection he with he
        exact ⟨b, rfl, he ▸ hgrow.1⟩

theorem coversDoc_grow {d d' : List Category} (hgrow : DocGrow d d')
    (c : Category) (h : coversDoc d c = true) : coversDoc d' c = true := by
  simp only [coversDoc] at h ⊢
  rcases hf : d.find? (fun e => e.title == c.title) with _ | e
  · rw [hf] at h; simp at h
  · rw [hf] at h
    obtain ⟨e', he', hee⟩ := find?_title_grow c.title hgrow hf
    rw [he']
    exact coversItems_grow hee.2.2.2.2 c.items h

theorem coversItem_cons_skip (i : Item) (l : List Item) (imp : Item)
    (himp : imp.isGroup = true)
    (hguard : (i.isGroup && (i.title == imp.title)) = false) :
    coversItem (i :: l) imp = coversItem l imp := by
  simp only [coversItem, himp, if_true, findFirstGroupByTitle, hguard,
    Bool.false_eq_true, if_false]

theorem mergeSubAux_contains (subTitles : List String) :
    ∀ (imps acc : List Item) (ctr : Nat),
      (∀ u, subTitles.contains u = true →
        (acc.map Item.title).contains u = true) →
      ∀ s ∈ imps,
        (((mergeSubAux subTitles acc imps ctr).1.map Item.title).contains
          s.title) = true := by
  intro imps
  induction imps with
  | nil => intro acc ctr _ s hs; simp at hs
  | cons imp rest ih =>
    intro acc ctr hst s hs
    simp only [mergeSubAux]
    rcases hc : subTitles.contains imp.title with _ | _
    · simp only [Bool.false_eq_true, if_false]
      show (((mergeSubAux subTitles (acc ++ [imp.setId (freshId ctr).1]) rest
        (freshId ctr).2).1).map Item.title).contains s.title = true
      rcases List.mem_cons.mp hs with hsi | hsr
      · obtain ⟨ext, hext⟩ := mergeSubAux_eq_append subTitles rest
          (acc ++ [imp.setId (freshId ctr).1]) (freshId ctr).2
        rw [hext, contains_iff_mem_str, hsi, List.map_append, List.map_append]
        refine List.mem_append_left _ (List.mem_append_right _ ?_)
        simp
      · refine ih _ _ ?_ s hsr
        intro u hu
        rw [contains_iff_mem_str, List.map_append]
        refine List.mem_append_left _ ?_
        rw [← contains_iff_mem_str]
        exact hst u hu
    · simp only [if_true]
      rcases List.mem_cons.mp hs with hsi | hsr
      · obtain ⟨ext, hext⟩ := mergeSubAux_eq_append subTitles rest acc ctr
        rw [hext, contains_iff_mem_str, hsi, List.map_append]
        refine List.mem_append_left _ ?_
        rw [← contains_iff_mem_str]
        exact hst imp.title hc
      · exact ih acc ctr hst s hsr

@[simp] theorem Item.isGroup_group (i t : String) (c : Nat) (l : List Item) :
    (Item.group i t c l).isGroup = true := rfl

@[simp] theorem Item.isGroup_option (i t : String) (c : Nat) :
    (Item.option i t c).isGroup = false := rfl

@[simp] theorem Item.isOption_group (i t : String) (c : Nat) (l : List Item) :
    (Item.group i t c l).isOption = false := rfl

@[simp] theorem Item.isOption_option (i t : String) (c : Nat) :
    (Item.option i t c).isOption = true := rfl

@[simp] theorem Item.title_group (i t : String) (c : Nat) (l : List Item) :
    (Item.group i t c l).title = t := rfl

@[simp] theorem Item.title_option (i t : String) (c : Nat) :
    (Item.option i t c).title = t := rfl

@[simp] theorem Item.subItems_group (i t : String) (c : Nat) (l : List Item) :
    (Item.group i t c l).subItems = l := rfl

theorem regenSubs_titles : ∀ (subs : List Item) (ctr : Nat),
    ((regenSubs subs ctr).1.map Item.title) = subs.map Item.title := by
  intro subs
  induction subs with
  | nil => intro ctr; rfl
  | cons sub rest ih =>
    intro ctr
    simp only [regenSubs, List.map_cons, Item.title_setId]
    rw [ih]

theorem mergeGroupStep_establishes :
    ∀ (l : List Item) (imp : Item) (ctr : Nat), imp.isGroup = true →
      coversItem (mergeGroupStep l imp ctr).1 imp = true := by
  intro l
  induction l with
  | nil =>
    intro imp ctr himp
    show coversItem [Item.group (freshId ctr).1 imp.title imp.createdAt
      (regenSubs imp.subItems (freshId ctr).2).1] imp = true
    simp only [coversItem, himp, if_true, findFirstGroupByTitle,
      Item.isGroup_group, Item.title_group, Bool.true_and, beq_self_eq_true,
      if_pos]
    rw [List.all_eq_true]
    intro s hs
    simp only [Item.subItems_group]
    rw [regenSubs_titles, contains_iff_mem_str]
    exact List.mem_map_of_mem Item.title hs
  | cons i rest ih =>
    intro imp ctr himp
    simp only [mergeGroupStep]
    rcases hm : i.isGroup && (i.title == imp.title) with _ | _
    · simp only [Bool.false_eq_true, if_false]
      rw [coversItem_cons_skip i _ imp himp hm]
      exact ih imp ctr himp
    · simp only [if_true]
      cases i with
      | option a b c => simp at hm
      | group gi gt gc subs =>
        simp only [Item.isGroup_group, Item.title_group, Bool.true_and] at hm
        simp only [coversItem, himp, if_true, findFirstGroupByTitle,
          Item.isGroup_group, Item.title_group, Bool.true_and, hm, if_pos]
        rw [List.all_eq_true]
        intro s hs
        simp only [Item.subItems_group]
        show (((mergeSubOptions subs imp.subItems ctr).1).map
          Item.title).contains s.title = true
        rw [mergeSubOptions]
        exact mergeSubAux_contains (subs.map Item.title) imp.subItems subs ctr
          (fun u hu => hu) s hs

theorem mergeOptionStep_establishes (l : List Item) (imp : Item) (ctr : Nat)
    (himp : imp.isGroup = false) :
    coversItem (mergeOptionStep l imp ctr).1 imp = true := by
  have hio : imp.isOption = true := Item.isOption_of_not_isGroup imp himp
  simp only [mergeOptionStep]
  rcases h : l.any (fun i => i.isOption && i.title == imp.title) with _ | _
  · simp only [Bool.false_eq_true, if_false, coversItem, himp]
    rw [List.any_eq_true]
    refine ⟨imp.setId (freshId ctr).1, List.mem_append_right _ (by simp), ?_⟩
    simp [hio]
  · simp only [if_true, coversItem, himp, Bool.false_eq_true, if_false]
    exact h

theorem mergeCatItems_establishes :
    ∀ (impItems l : List Item) (ctr : Nat),
      coversItems (mergeCatItems l impItems ctr).1 impItems = true := by
  intro impItems
  induction impItems with
  | nil => intro l ctr; rfl
  | cons imp rest ih =>
    intro l ctr
    simp only [mergeCatItems, coversItems, List.all_cons, Bool.and_eq_true]
    rcases hg : imp.isGroup with _ | _
    · simp only [Bool.false_eq_true, if_false]
      constructor
      · exact coversItem_grow
          (mergeCatItems_grows rest (mergeOptionStep l imp ctr).1
            (mergeOptionStep l imp ctr).2) imp
          (mergeOptionStep_establishes l imp ctr hg)
      · exact ih _ _
    · simp only [if_true]
      constructor
      · exact coversItem_grow
          (mergeCatItems_grows rest (mergeGroupStep l imp ctr).1
            (mergeGroupStep l imp ctr).2) imp
          (mergeGroupStep_establishes l imp ctr hg)
      · exact ih _ _

theorem regenTopItem_title (i : Item) (ctr : Nat) :
    (regenTopItem i ctr).1.title = i.title := by
  cases i <;> rfl

theorem regenTopItem_isGroup (i : Item) (ctr : Nat) :
    (regenTopItem i ctr).1.isGroup = i.isGroup := by
  cases i <;> rfl

theorem regenTopItem_isOption (i : Item) (ctr : Nat) :
    (regenTopItem i ctr).1.isOption = i.isOption := by
  cases i <;> rfl

theorem regenTopItem_subTitles (i : Item) (ctr : Nat) :
    (regenTopItem i ctr).1.subItems.map Item.title =
      i.subItems.map Item.title := by
  cases i with
  | option a b c => rfl
  | group gi gt gc subs =>
    simp only [regenTopItem, Item.subItems]
    exact regenSubs_titles subs (freshId ctr).2

theorem regenItems_covers :
    ∀ (items : List Item) (ctr : Nat),
      ((items.filter Item.isGroup).map Item.title).Nodup →
      ∀ imp ∈ items, coversItem (regenItems items ctr).1 imp = true := by
  intro items
  induction items with
  | nil => intro ctr _ imp himp; simp at himp
  | cons i rest ih =>
    intro ctr hnd imp himp
    have hndrest : ((rest.filter Item.isGroup).map Item.title).Nodup := by
      rcases hig : i.isGroup with _ | _
      · simpa [List.filter_cons, hig] using hnd
      · rw [List.filter_cons_of_pos (by simp [hig]), List.map_cons,
          List.nodup_cons] at hnd
        exact hnd.2
    show coversItem ((regenTopItem i ctr).1 ::
      (regenItems rest (regenTopItem i ctr).2).1) imp = true
    rcases List.mem_cons.mp himp with hii | hir
    · subst hii
      rcases hig : imp.isGroup with _ | _
      · have hio : imp.isOption = true := Item.isOption_of_not_isGroup imp hig
        simp only [coversItem, hig, Bool.false_eq_true, if_false]
        rw [List.any_eq_true]
        refine ⟨(regenTopItem imp ctr).1, List.mem_cons_self _ _, ?_⟩
        rw [regenTopItem_isOption, regenTopItem_title]
        simp [hio]
      · simp only [coversItem, hig, if_true, findFirstGroupByTitle]
        rw [regenTopItem_isGroup, regenTopItem_title]
        simp only [hig, Bool.true_and, beq_self_eq_true, if_pos]
        rw [List.all_eq_true]
        intro s hs
        rw [regenTopItem_subTitles, contains_iff_mem_str]
        exact List.mem_map_of_mem Item.title hs
    · rcases hig : imp.isGroup with _ | _
      · have hrest := ih (regenTopItem i ctr).2 hndrest imp hir
        simp only [coversItem, hig, Bool.false_eq_true, if_false] at hrest ⊢
        rw [List.any_cons, hrest]
        simp
      · have hguard : ((regenTopItem i ctr).1.isGroup &&
            ((regenTopItem i ctr).1.title == imp.title)) = false := by
          rw [regenTopItem_isGroup, regenTopItem_title]
          rcases hgi : i.isGroup with _ | _
          · simp
          · simp only [Bool.true_and]
            rcases hti : i.title == imp.title with _ | _
            · rfl
            · exfalso
              rw [List.filter_cons_of_pos (by simp [hgi]), List.map_cons,
                List.nodup_cons] at hnd
              refine hnd.1 ?_
              rw [eq_of_beq hti]
              exact List.mem_map_of_mem Item.title
                (List.mem_filter.mpr ⟨hir, hig⟩)
        rw [coversItem_cons_skip _ _ imp hig hguard]
        exact ih (regenTopItem i ctr).2 hndrest imp hir

theorem coversDoc_cons_skip (e : Category) (d : List Category) (c : Category)
    (h : (e.title == c.title) = false) :
    coversDoc (e :: d) c = coversDoc d c := by
  simp only [coversDoc]
  rw [List.find?_cons_of_neg _ (by simp [h])]

theorem mergeDocStep_establishes :
    ∀ (cats : List Category) (c : Category) (now ctr : Nat),
      nodupGroupTitles c →
      coversDoc (mergeDocStep cats c now ctr).1 c = true := by
  intro cats
  induction cats with
  | nil =>
    intro c now ctr hnd
    show coversDoc [{ c with
      id := (freshId ctr).1
      items := (regenItems c.items (freshId ctr).2).1 }] c = true
    simp only [coversDoc]
    rw [List.find?_cons_of_pos _ (by simp)]
    simp only [coversItems]
    rw [List.all_eq_true]
    intro imp himp
    exact regenItems_covers c.items (freshId ctr).2 hnd imp himp
  | cons e rest ih =>
    intro c now ctr hnd
    simp only [mergeDocStep]
    rcases het : e.title == c.title with _ | _
    · simp only [Bool.false_eq_true, if_false]
      rw [coversDoc_cons_skip e _ c het]
      exact ih c now ctr hnd
    · simp only [if_true, coversDoc]
      rw [List.find?_cons_of_pos _ (by simp [eq_of_beq het])]
      simp only [coversItems]
      rw [List.all_eq_true]
      intro imp himp
      have := mergeCatItems_establishes c.items e.items ctr
      simp only [coversItems] at this
      exact List.all_eq_true.mp this imp himp

theorem importCategories_establishes :
    ∀ (imported prev : List Category) (now ctr : Nat),
      (∀ c ∈ imported, nodupGroupTitles c) →
      ∀ c ∈ imported,
        coversDoc (importCategories prev imported now ctr).1 c = true := by
  intro imported
  induction imported with
  | nil => intro prev now ctr _ c hc; simp at hc
  | cons c0 rest ih =>
    intro prev now ctr hnd c hc
    simp only [importCategories]
    rcases List.mem_cons.mp hc with hc0 | hcr
    · refine coversDoc_grow
        (importCategories_grows rest (mergeDocStep prev c0 now ctr).1 now
          (mergeDocStep prev c0 now ctr).2) c ?_
      rw [hc0]
      exact mergeDocStep_establishes prev c0 now ctr
        (hnd c0 (List.mem_cons_self _ _))
    · exact ih _ now _ (fun d hd => hnd d (List.mem_cons_of_mem _ hd)) c hcr

theorem importCategories_covered_strip :
    ∀ (imported cats : List Category) (now ctr : Nat),
      (∀ c ∈ imported, coversDoc cats c = true) →
      (importCategories cats imported now ctr).1.map Category.stripMod =
        cats.map Category.stripMod := by
  intro imported
  induction imported with
  | nil => intro cats now ctr _; rfl
  | cons c0 rest ih =>
    intro cats now ctr hcov
    simp only [importCategories]
    rw [mergeDocStep_covered cats c0 now ctr (hcov c0 (List.mem_cons_self _ _))]
    rw [ih (touchFirstByTitle cats c0.title now) now ctr (fun c hc => by
      rw [coversDoc_touchFirst]
      exact hcov c (List.mem_cons_of_mem _ hc))]
    exact map_stripMod_touchFirst c0.title now cats

/-- C4 counterexample.  Importing, into the empty document, a single
category `"A"` that contains two groups both titled `"G"` (the first with
option `"x"`, the second with option `"y"`) and then importing the same list
again adds option `"y"` to the first `"G"` group: the appended-as-new
category kept both duplicate groups verbatim, and the second import merges
the second `"G"`'s options into the first `"G"`.  So the second application
adds an option, refuting idempotence as stated. -/
theorem c4_counterexample :
    ((importCategories (importCategories []
        [{ id := "ci"
           title := "A"
           description := none
           createdAt := 0
           modifiedAt := 0
           items := [Item.group "g1" "G" 0 [Item.option "o1" "x" 0],
             Item.group "g2" "G" 0 [Item.option "o2" "y" 0]] }] 9 0).1
        [{ id := "ci"
           title := "A"
           description := none
           createdAt := 0
           modifiedAt := 0
           items := [Item.group "g1" "G" 0 [Item.option "o1" "x" 0],
             Item.group "g2" "G" 0 [Item.option "o2" "y" 0]] }] 9 100).1.map
      (fun c => c.items.map (fun i => i.subItems.map Item.title))) =
      [[["x", "y"], ["y"]]] ∧
    ((importCategories []
        [{ id := "ci"
           title := "A"
           description := none
           createdAt := 0
           modifiedAt := 0
           items := [Item.group "g1" "G" 0 [Item.option "o1" "x" 0],
             Item.group "g2" "G" 0 [Item.option "o2" "y" 0]] }] 9 0).1.map
      (fun c => c.items.map (fun i => i.subItems.map Item.title))) =
      [[["x"], ["y"]]] ∧
    ([[["x", "y"], ["y"]]] ≠ ([[["x"], ["y"]]] : List (List (List String)))) :=
  ⟨rfl, rfl, by decide⟩

/-- C4 (corrected).  Provided no imported category contains two groups with
the same title, importing the same list twice produces a document equal, up
to the `modifiedAt` refresh of the title-matched categories, to importing it
once: the second application adds no category, group, or option and
generates no id. -/
theorem c4_title_merge_idempotent (prev imported : List Category)
    (now ctr now2 ctr2 : Nat)
    (hnd : ∀ c ∈ imported, nodupGroupTitles c) :
    (importCategories (importCategories prev imported now ctr).1 imported
        now2 ctr2).1.map Category.stripMod =
      (importCategories prev imported now ctr).1.map Category.stripMod :=
  importCategories_covered_strip imported _ now2 ctr2
    (fun c hc => importCategories_establishes imported prev now ctr hnd c hc)

/-- Witness for C4's amended statement: re-importing a category with one
group and one root option over the empty document changes nothing up to
`modifiedAt`. -/
theorem c4_title_merge_idempotent_witness :
    (importCategories (importCategories []
        [{ id := "w"
           title := "W"
           description := none
           createdAt := 0
           modifiedAt := 7
           items := [Item.group "g" "G" 0 [Item.option "o" "x" 0],
             Item.option "r" "y" 0] }] 9 0).1
        [{ id := "w"
           title := "W"
           description := none
           createdAt := 0
           modifiedAt := 7
           items := [Item.group "g" "G" 0 [Item.option "o" "x" 0],
             Item.option "r" "y" 0] }] 11 50).1.map Category.stripMod =
      (importCategories []
        [{ id := "w"
           title := "W"
           description := none
           createdAt := 0
           modifiedAt := 7
           items := [Item.group "g" "G" 0 [Item.option "o" "x" 0],
             Item.option "r" "y" 0] }] 9 0).1.map Category.stripMod :=
  c4_title_merge_idempotent [] _ 9 0 11 50 (by
    intro c hc
    rcases List.mem_cons.mp hc with hc0 | hc0
    · rw [hc0]
      unfold nodupGroupTitles
      decide
    · simp at hc0)

/-- Witness for C10: instantiates the general clause on an existing group
`[option "s"]` and two imported options both titled `"t"`. -/
theorem c10_stale_duplicate_check_witness :
    ((mergeSubOptions [Item.option "a" "s" 0]
        [Item.option "b" "t" 0, Item.option "c" "t" 0] 0).1.countP
      (fun i => i.title == "t")) =
      ([Item.option "b" "t" 0, Item.option "c" "t" 0].countP
        (fun i => i.title == "t")) :=
  c10_stale_duplicate_check.1 _ _ 0 "t" (by decide)
